import Mathlib

/-!
# Verification of the `analyze_and_shorten` pipeline

A shallow embedding of `src/analyze_and_shorten.py`: the Definition Scanner
(`find_all_procedures`), the Call-Site Scanner (`find_procedure_calls`), the
Short-Name Allocator (`generate_short_names`) and the Rewriter
(`replace_procedures_and_calls`), together with theorems about them.

Text is modelled as lists of character code points (`Nat`), lines are such
lists and a whole source text is one list in which the code point 10 is the
line separator, exactly as the Python code's `content.split('\n')` /
`'\n'.join(lines)` treat it.  The regular expressions of the source are
embedded as executable matchers on code-point lists; character classes
(`\s`, `\d`, `\w`, `[A-Z]`, …) are taken at their ASCII meaning, which is
the meaning they have on the BASIC dialect the tool processes.  Where a
pattern admits regex backtracking (`\s+` before a literal name, the optional
line-label group) the matchers implement the same greedy-with-backtracking
search order, so they accept exactly the strings the Python patterns accept
and produce the same capture groups.
-/

/-- One line of text (or a whole text, with 10 as line separator). -/
abbrev Line := List Nat

/-- ASCII whitespace, the characters Python's `\s` and `str.strip` treat as
space on ASCII text: space, tab, newline, vertical tab, form feed, carriage
return. -/
def isSpaceCh (c : Nat) : Bool :=
  c = 32 || c = 9 || c = 10 || c = 11 || c = 12 || c = 13

/-- `\d` on ASCII: the decimal digits. -/
def isDigitCh (c : Nat) : Bool := 48 ≤ c && c ≤ 57

/-- An upper-case ASCII letter. -/
def isUpperCh (c : Nat) : Bool := 65 ≤ c && c ≤ 90

/-- A lower-case ASCII letter. -/
def isLowerCh (c : Nat) : Bool := 97 ≤ c && c ≤ 122

/-- An ASCII letter. -/
def isAlphaCh (c : Nat) : Bool := isUpperCh c || isLowerCh c

/-- A letter or a digit: the characters of a procedure-name token
(`[A-Z][A-Z0-9]*` matched case-insensitively). -/
def isAlnumCh (c : Nat) : Bool := isAlphaCh c || isDigitCh c

/-- A regex word character (`\w` on ASCII): letter, digit or underscore.
`\b` separates a word character from a non-word character. -/
def isWordCh (c : Nat) : Bool := isAlnumCh c || c = 95

/-- Upper-case a character, as Python's `str.upper` on ASCII. -/
def upCh (c : Nat) : Nat := if isLowerCh c then c - 32 else c

/-- Case-insensitive character equality, as `re.IGNORECASE` on ASCII. -/
def ciEqCh (a b : Nat) : Bool := upCh a = upCh b

/-- A string literal as a code-point list (for concrete inputs). -/
def s2l (s : String) : Line := s.data.map (fun c => c.toNat)

/-- The keyword `PROC` of the definition pattern. -/
def kwPROC : Line := [80, 82, 79, 67]

/-- Python's `str.strip()` on ASCII text: drop whitespace at both ends. -/
def stripWs (l : Line) : Line :=
  ((l.dropWhile isSpaceCh).reverse.dropWhile isSpaceCh).reverse

/-- Consume a literal case-insensitively (the compiled form of
`re.escape(name)` under `re.IGNORECASE`): the rest of the input on success. -/
def ciDrop : Line → Line → Option Line
  | [], l => some l
  | _ :: _, [] => none
  | p :: ps, c :: cs => if ciEqCh p c then ciDrop ps cs else none

/-- Is the line's first non-whitespace character `#` (Python's
`line.strip().startswith('#')`) or the line blank?  The Call-Site Scanner and
the Rewriter's substitution branch skip exactly these lines. -/
def commentOrBlank (l : Line) : Bool :=
  (stripWs l).isEmpty || (stripWs l).headD 0 = 35

/-- The Definition Scanner's per-line pattern
`^\s*(\d+\s+)?PROC\s+([A-Z][A-Z0-9]*)\s*$` (case-insensitive), applied by the
source to `line.strip()`: on success, the captured name upper-cased, as
`match.group(2).upper()`.  The label group, the whitespace runs and the name
token are all forced to their greedy extent by the characters that must
follow them, so maximal-munch scanning is exactly the regex's behaviour.
`parseLabel` consumes the optional group `(\d+\s+)?`: if the digits are not
followed by whitespace the group cannot participate in a match, and the
engine retries from the digits themselves (where the keyword then fails to
match, exactly as in `parseDefLine` below). -/
def parseLabel (l : Line) : Line :=
  let ds := l.takeWhile isDigitCh
  if ds.isEmpty then l
  else
    let w := (l.drop ds.length).takeWhile isSpaceCh
    if w.isEmpty then l else (l.drop ds.length).drop w.length

/-- The tail of the Definition Scanner's pattern after the keyword:
`\s+([A-Z][A-Z0-9]*)\s*$`, returning the captured name upper-cased. -/
def parseAfterKw (r1 : Line) : Option Line :=
  let w2 := r1.takeWhile isSpaceCh
  if w2.isEmpty then none
  else
    let r2 := r1.drop w2.length
    if isAlphaCh (r2.headD 0) then
      let tok := r2.takeWhile isAlnumCh
      if ((r2.drop tok.length).dropWhile isSpaceCh).isEmpty then
        some (tok.map upCh)
      else none
    else none

def parseDefLine (l : Line) : Option Line :=
  match ciDrop kwPROC (parseLabel (l.dropWhile isSpaceCh)) with
  | none => none
  | some r1 => parseAfterKw r1

/-- Split a text at the code point 10, as `content.split('\n')`. -/
def splitNl : Line → List Line
  | [] => [[]]
  | c :: cs =>
    if c = 10 then [] :: splitNl cs
    else
      match splitNl cs with
      | l :: ls => (c :: l) :: ls
      | [] => [[c]]

/-- Join lines with the code point 10, as `'\n'.join(lines)`. -/
def joinNl : List Line → Line
  | [] => []
  | [l] => l
  | l :: ls => l ++ 10 :: joinNl ls

/-- Record one definition of `n` at line `i` in the index, as the source's
`procedures.setdefault(name, []).append(i)` idiom does on an
insertion-ordered dict. -/
def addDef : List (Line × List Nat) → Line → Nat → List (Line × List Nat)
  | [], n, i => [(n, [i])]
  | (k, v) :: rest, n, i =>
    if k = n then (k, v ++ [i]) :: rest else (k, v) :: addDef rest n i

/-- The Definition Scanner's loop over the enumerated lines. -/
def findAllGo : Nat → List Line → List (Line × List Nat) → List (Line × List Nat)
  | _, [], m => m
  | i, l :: ls, m =>
    findAllGo (i + 1) ls
      (match parseDefLine (stripWs l) with
       | some n => addDef m n i
       | none => m)

/-- `find_all_procedures(content)`: the DefinitionIndex, an insertion-ordered
mapping from upper-cased procedure name to the list of line indices of its
definition lines. -/
def find_all_procedures (content : Line) : List (Line × List Nat) :=
  findAllGo 0 (splitNl content) []

/-- Lookup in an insertion-ordered mapping (Python dict access). -/
def lookupA {α : Type} : List (Line × α) → Line → Option α
  | [], _ => none
  | (k, v) :: rest, n => if k = n then some v else lookupA rest n

/-- The keys of an insertion-ordered mapping, in order. -/
def keysA {α : Type} (m : List (Line × α)) : List Line := m.map (·.1)

/-! ## The Call-Site Scanner -/

/-- Does the line start (here) with a word character?  At the end of the
input there is no word character.  `\b` holds at a point exactly when the
word-character status changes across it. -/
def headWord (l : Line) : Bool :=
  match l with
  | [] => false
  | c :: _ => isWordCh c

/-- Consume a literal case-insensitively and also report the last input
character consumed (needed for the `\b` after the literal and for resuming
`re.sub`'s scan). -/
def ciDropLast : Line → Line → Option (Option Nat × Line)
  | [], l => some (none, l)
  | _ :: _, [] => none
  | p :: ps, c :: cs =>
    if ciEqCh p c then
      match ciDropLast ps cs with
      | some (none, rest) => some (some c, rest)
      | some (some d, rest) => some (some d, rest)
      | none => none
    else none

/-- `\bname\b` at the current point: `prevWord` is the word-character status
of the character before this point (false at the start of the string). -/
def wordHit (n : Line) (prevWord : Bool) (l : Line) : Bool :=
  bne prevWord (headWord l) &&
  (match ciDropLast n l with
   | none => false
   | some (lastC, rest) =>
     let lw := match lastC with | none => prevWord | some d => isWordCh d
     bne lw (headWord rest))

/-- The character class `[:$\s]` of the call pattern's lookahead: a colon, a
literal dollar sign (inside a class `$` is a plain character) or
whitespace. -/
def lookClass (c : Nat) : Bool := c = 58 || c = 36 || isSpaceCh c

/-- `\s*[:$\s]` somewhere at the head: zero or more whitespace characters and
then one character of the class. -/
def wsThenClass : Line → Bool
  | [] => false
  | c :: rest => lookClass c || (isSpaceCh c && wsThenClass rest)

/-- The call pattern's lookahead `(?=\s*[:$\s]|$)`. -/
def lookaheadOk (l : Line) : Bool := l.isEmpty || wsThenClass l

/-- One attempted match of `\bname\b(?=\s*[:$\s]|$)` at the current point. -/
def callHitAt (n : Line) (prevWord : Bool) (l : Line) : Bool :=
  wordHit n prevWord l &&
  (match ciDropLast n l with
   | none => false
   | some (_, rest) => lookaheadOk rest)

/-- `re.search` of the call pattern: try every start position left to
right. -/
def searchCallGo (n : Line) (prevWord : Bool) : Line → Bool
  | [] => callHitAt n prevWord []
  | c :: cs => callHitAt n prevWord (c :: cs) || searchCallGo n (isWordCh c) cs

/-- Does the call pattern `\bname\b(?=\s*[:$\s]|$)` match somewhere in the
line (case-insensitively)? -/
def searchCall (n l : Line) : Bool := searchCallGo n false l

/-- `\s+` then the literal `n` then `\s*$`, with the regex's greedy
backtracking on the whitespace run; on success the pair (whitespace consumed
by `\s+`, trailing `(\s*)` group).  `litHere` is the terminal attempt:
the literal at the current point followed by trailing whitespace only. -/
def litHere (n l : Line) : Option (Line × Line) :=
  match ciDrop n l with
  | none => none
  | some rest => if (rest.dropWhile isSpaceCh).isEmpty then some ([], rest) else none

/-- `\s* n (\s*)$` with greedy backtracking, returning (whitespace consumed,
trailing group). -/
def wsStarLit (n : Line) : Line → Option (Line × Line)
  | [] => litHere n []
  | c :: cs =>
    if isSpaceCh c then
      match wsStarLit n cs with
      | some (w, t) => some (c :: w, t)
      | none => litHere n (c :: cs)
    else litHere n (c :: cs)

/-- `\s+ n (\s*)$` (at least one whitespace character first). -/
def wsPlusLit (n : Line) : Line → Option (Line × Line)
  | [] => none
  | c :: cs =>
    if isSpaceCh c then
      match wsStarLit n cs with
      | some (w, t) => some (c :: w, t)
      | none => none
    else none

/-- The Call-Site Scanner's definition-line exclusion (line 39 of the
source): `re.match(r'^\s*(\d+\s+)?PROC\s+' + re.escape(name) + r'\s*$',
line.strip(), re.IGNORECASE)`. -/
def defLineFor (l n : Line) : Bool :=
  match ciDrop kwPROC (parseLabel ((stripWs l).dropWhile isSpaceCh)) with
  | none => false
  | some r1 => (wsPlusLit n r1).isSome

/-- Is line `l` recorded as a call of `n`: not blank or comment, the call
pattern matches, and the line is not a definition line for `n`. -/
def callRecorded (n l : Line) : Bool :=
  !commentOrBlank l && searchCall n l && !defLineFor l n

/-- The Call-Site Scanner's loop over the enumerated lines for one name. -/
def collectCallsGo (n : Line) : Nat → List Line → List Nat → List Nat
  | _, [], acc => acc
  | i, l :: ls, acc =>
    collectCallsGo n (i + 1) ls (if callRecorded n l then acc ++ [i] else acc)

/-- `find_procedure_calls(content, proc_names)`: the CallIndex.  Each name's
list is built independently, so the iteration order over the name set does
not affect any entry. -/
def find_procedure_calls (content : Line) (names : List Line) :
    List (Line × List Nat) :=
  names.map (fun n => (n, collectCallsGo n 0 (splitNl content) []))

/-! ## The Short-Name Allocator -/

/-- Lexicographic comparison of code-point lists, as Python compares
strings. -/
def lexLeB : Line → Line → Bool
  | [], _ => true
  | _ :: _, [] => false
  | a :: l1, b :: l2 => a < b || (a = b && lexLeB l1 l2)

/-- The sort key `(len(x), x)` of `generate_short_names`, as a non-strict
order. -/
def keyLeB (a b : Line) : Bool :=
  a.length < b.length || (a.length = b.length && lexLeB a b)

/-- The sort key as a relation. -/
def keyLe (a b : Line) : Prop := keyLeB a b = true

instance : DecidableRel keyLe := fun a b => by
  unfold keyLe; infer_instance

/-- `sorted(proc_names, key=lambda x: (len(x), x))`.  Insertion sort returns
the sorted permutation; since equal keys `(len x, x)` force equal strings,
this is the list Python's stable sort returns. -/
def sortNames (names : List Line) : List Line :=
  List.insertionSort keyLe names

/-- Python dict assignment `d[k] = v` on an insertion-ordered association
list: overwrite in place or append. -/
def setA : List (Line × Line) → Line → Line → List (Line × Line)
  | [], k, v => [(k, v)]
  | (k0, v0) :: rest, k, v =>
    if k0 = k then (k0, v) :: rest else (k0, v0) :: setA rest k v

/-- The allocator's inner loop: try the prefixes of `n` whose lengths are
listed, in order, and return the first one not yet used. -/
def firstFreeLens (n : Line) (used : List Line) : List Nat → Option Line
  | [] => none
  | k :: ks =>
    if n.take k ∈ used then firstFreeLens n used ks else some (n.take k)

/-- `for length in range(1, len(name) + 1)`: the first free prefix of `n`. -/
def firstFree (n : Line) (used : List Line) : Option Line :=
  firstFreeLens n used (List.range' 1 n.length)

/-- The allocator's fold over the sorted names.  The `none` branch is the
source's defensive `else` fallback (assign the full name); the Bool records
whether it ever ran. -/
def genGo : List Line → List (Line × Line) → List Line → Bool →
    List (Line × Line) × List Line × Bool
  | [], m, u, fb => (m, u, fb)
  | n :: rest, m, u, fb =>
    match firstFree n u with
    | some c => genGo rest (setA m n c) (u ++ [c]) fb
    | none => genGo rest (setA m n n) (u ++ [n]) true

/-- `generate_short_names(proc_names)`: the NameMapping, an insertion-ordered
association list whose insertion order is the `(len, lex)` order the
allocator processes names in. -/
def generate_short_names (names : List Line) : List (Line × Line) :=
  (genGo (sortNames names) [] [] false).1

/-- Did the allocator's defensive fallback branch run on this input? -/
def genFallbackFlag (names : List Line) : Bool :=
  (genGo (sortNames names) [] [] false).2.2

/-! ## The Rewriter -/

/-- The Rewriter's definition pattern
`^(\s*\d*\s*PROC\s+)name(\s*)$` (case-insensitive) on the raw line: the two
capture groups on success.  Note `\s*\d*\s*` — unlike the Definition
Scanner, digits need not be followed by whitespace here. -/
def rewriterDefMatch (l n : Line) : Option (Line × Line) :=
  let w1 := l.takeWhile isSpaceCh
  let r1 := l.drop w1.length
  let ds := r1.takeWhile isDigitCh
  let r2 := r1.drop ds.length
  let w2 := r2.takeWhile isSpaceCh
  let r3 := r2.drop w2.length
  match ciDrop kwPROC r3 with
  | none => none
  | some r4 =>
    match wsPlusLit n r4 with
    | none => none
    | some (w3, t) => some (w1 ++ ds ++ w2 ++ r3.take 4 ++ w3, t)

/-- `re.sub(r'\b' + name + r'\b', s, ·, re.IGNORECASE)`: scan left to right,
replace each non-overlapping whole-word occurrence, resume after the matched
text.  The guard `1 ≤ n.length` only rules out the empty pattern, which no
mapping entry has (every key is a scanner name token).  The fuel argument
only makes the recursion structural: every step consumes at least one
character, so fuel `l.length` never runs out. -/
def subGo (n s : Line) : Nat → Bool → Line → Line
  | 0, _, l => l
  | _ + 1, _, [] => []
  | fuel + 1, prevWord, c :: cs =>
    if 1 ≤ n.length ∧ wordHit n prevWord (c :: cs) = true then
      s ++ subGo n s fuel (isWordCh ((c :: cs).getD (n.length - 1) 0))
        ((c :: cs).drop n.length)
    else c :: subGo n s fuel (isWordCh c) cs

/-- Whole-word case-insensitive substitution over a line. -/
def subWordCi (n s l : Line) : Line := subGo n s l.length false l

/-- One mapping entry applied to one line, exactly as the source's inner
loop body: the definition match and the comment test are made against the
original line `orig` (the loop variable `line`, never rebound), while the
substitution rewrites the current content `cur` (`lines[i]`); `continue`
after a definition match skips the substitution for this entry only. -/
def rewriteStep (orig : Line) (cur : Line) (e : Line × Line) : Line :=
  match rewriterDefMatch orig e.1 with
  | some (g1, g2) => g1 ++ e.2 ++ g2
  | none => if commentOrBlank orig then cur else subWordCi e.1 e.2 cur

/-- All mapping entries applied to one line, in the mapping's insertion
order. -/
def rewriteLine (mapping : List (Line × Line)) (orig : Line) : Line :=
  mapping.foldl (rewriteStep orig) orig

/-- `replace_procedures_and_calls(content, name_mapping)`: the rewritten
text. -/
def replace_procedures_and_calls (content : Line)
    (mapping : List (Line × Line)) : Line :=
  joinNl ((splitNl content).map (rewriteLine mapping))

/-- The orchestration of `analyze_and_shorten_procedures` restricted to its
data flow: scan, allocate, rewrite.  `list(set(...))` passes the scanner's
key set to the allocator; the allocator sorts its input, so the set's
iteration order does not affect the mapping and the keys' first-seen order
stands in for it. -/
def analyzePipeline (content : Line) : Line :=
  replace_procedures_and_calls content
    (generate_short_names (keysA (find_all_procedures content)))

/-! ## Basic predicates used by the specifications -/

/-- Every character is whitespace. -/
def allWs (l : Line) : Bool := l.all isSpaceCh

/-- Every character is a decimal digit. -/
def allDigit (l : Line) : Bool := l.all isDigitCh

/-- Pointwise case-insensitive equality of two lines. -/
def ciEqL : Line → Line → Bool
  | [], [] => true
  | a :: l1, b :: l2 => ciEqCh a b && ciEqL l1 l2
  | _, _ => false

/-- A procedure-name token: a letter followed by letters and digits
(`[A-Z][A-Z0-9]*` case-insensitively). -/
def validTok : Line → Bool
  | [] => false
  | c :: cs => isAlphaCh c && cs.all isAlnumCh

/-- A procedure-name token in canonical (upper-cased) form, as the keys of
the DefinitionIndex are recorded. -/
def upperTok (n : Line) : Bool := validTok n && n.all (fun c => !isLowerCh c)

/-- `a` is a (not necessarily proper) initial segment of `b`. -/
def isPref : Line → Line → Bool
  | [], _ => true
  | _ :: _, [] => false
  | a :: l1, b :: l2 => a = b && isPref l1 l2

/-- The declarative reading of the Definition Scanner's pattern on a raw
line: optional leading whitespace, an optional numeric line-label (digits
followed by whitespace), the keyword `PROC` in any casing, at least one
whitespace character, a procedure-name token, and trailing whitespace
only. -/
def DefStmt (l N : Line) : Prop :=
  ∃ w0 lab pk w2 tok w3,
    l = w0 ++ lab ++ pk ++ w2 ++ tok ++ w3 ∧
    allWs w0 = true ∧
    (lab = [] ∨ ∃ d wd, lab = d ++ wd ∧ d ≠ [] ∧ allDigit d = true ∧
      wd ≠ [] ∧ allWs wd = true) ∧
    ciEqL kwPROC pk = true ∧
    w2 ≠ [] ∧ allWs w2 = true ∧
    validTok tok = true ∧
    allWs w3 = true ∧
    N = tok.map upCh

/-- The optional-label disjunct of `DefStmt`. -/
def LabOk (lab : Line) : Prop :=
  lab = [] ∨ ∃ d wd, lab = d ++ wd ∧ d ≠ [] ∧ allDigit d = true ∧
    wd ≠ [] ∧ allWs wd = true

/-! ## Membership in the DefinitionIndex -/

/-- The list a key maps to, `[]` when absent. -/
def lookupD (m : List (Line × List Nat)) (k : Line) : List Nat :=
  (lookupA m k).getD []

/-- The indices of the lines (numbered from `i0`) whose stripped content the
definition pattern accepts with name `N`. -/
def defIdxs (N : Line) : Nat → List Line → List Nat
  | _, [] => []
  | i, l :: ls =>
    (if parseDefLine (stripWs l) = some N then [i] else []) ++ defIdxs N (i + 1) ls

/-! ## The Rewriter's definition branch -/

/-- The line shape the Rewriter's definition pattern
`^(\s*\d*\s*PROC\s+)name(\s*)$` accepts: unlike the Definition Scanner's
pattern, the digit run is optional on both sides independently — digits need
not be followed by whitespace. -/
def RelaxDefStmt (l n : Line) : Prop :=
  ∃ w0 ds w1 pk w2 nm w3,
    l = w0 ++ ds ++ w1 ++ pk ++ w2 ++ nm ++ w3 ∧
    allWs w0 = true ∧ allDigit ds = true ∧ allWs w1 = true ∧
    ciEqL kwPROC pk = true ∧
    w2 ≠ [] ∧ allWs w2 = true ∧
    ciEqL n nm = true ∧
    allWs w3 = true

/-! ## When a whole-word substitution is a no-op -/

/-- No position of the line carries a `\bname\b` hit, threading the
word-character status of the previous character exactly as the scanning
substitution does. -/
def NoHit (n : Line) : Bool → Line → Bool
  | _, [] => true
  | pw, c :: cs => !wordHit n pw (c :: cs) && NoHit n (isWordCh c) cs

/-! ## Theorems -/

example : find_all_procedures (s2l "10 PROC ALPHA\nPROC beta x\n  proc Gamma  ")
    = [(s2l "ALPHA", [0]), (s2l "GAMMA", [2])] := by decide

example : find_all_procedures (s2l "12PROC ALPHA") = [] := by decide

example : find_all_procedures (s2l "PROC PROC\nproc proc")
    = [(s2l "PROC", [0, 1])] := by decide

example : lookupA (find_procedure_calls (s2l "GOSUB ALPHA: PRINT 1") [s2l "ALPHA"])
    (s2l "ALPHA") = some [0] := by decide

example : lookupA (find_procedure_calls (s2l "ALPHABET = 5") [s2l "ALPHA"])
    (s2l "ALPHA") = some [] := by decide

example : lookupA (find_procedure_calls (s2l "ALPHA$=1") [s2l "ALPHA"])
    (s2l "ALPHA") = some [0] := by decide

example : lookupA (find_procedure_calls (s2l "# PROC ALPHA\nPROC ALPHA\nX=ALPHA)\nCALL alpha")
    [s2l "ALPHA"]) (s2l "ALPHA") = some [3] := by decide

example : generate_short_names [s2l "ALPHA", s2l "BETA"]
    = [(s2l "BETA", s2l "B"), (s2l "ALPHA", s2l "A")] := by decide

example : generate_short_names [s2l "APRICOT", s2l "APPLE"]
    = [(s2l "APPLE", s2l "A"), (s2l "APRICOT", s2l "AP")] := by decide

example : analyzePipeline (s2l "10 PROC ALPHA\nGOSUB ALPHA: PRINT 1\n# PROC ALPHA\nPROC BETA")
    = s2l "10 PROC A\nGOSUB A: PRINT 1\n# PROC ALPHA\nPROC B" := by decide

example : analyzePipeline (s2l "PROC AB\nPROC PROC") = s2l "P A\nPROC P" := by decide

example : rewriterDefMatch (s2l "12PROC ALPHA") (s2l "ALPHA")
    = some (s2l "12PROC ", s2l "") := by decide

/-! ## Toolkit lemmas -/

theorem dropWhile_append_all {p : Nat → Bool} {w l : Line} (h : w.all p = true) :
    (w ++ l).dropWhile p = l.dropWhile p := by
  induction w with
  | nil => rfl
  | cons c cs ih =>
    simp only [List.all_cons, Bool.and_eq_true] at h
    simp [List.dropWhile, h.1, ih h.2]

theorem takeWhile_append_all {p : Nat → Bool} {w l : Line} (h : w.all p = true) :
    (w ++ l).takeWhile p = w ++ l.takeWhile p := by
  induction w with
  | nil => rfl
  | cons c cs ih =>
    simp only [List.all_cons, Bool.and_eq_true] at h
    simp [List.takeWhile, h.1, ih h.2]

theorem dropWhile_cons_neg {p : Nat → Bool} {c : Nat} {l : Line} (h : p c = false) :
    (c :: l).dropWhile p = c :: l := by
  simp [List.dropWhile, h]

theorem takeWhile_cons_neg {p : Nat → Bool} {c : Nat} {l : Line} (h : p c = false) :
    (c :: l).takeWhile p = [] := by
  simp [List.takeWhile, h]

theorem dropWhile_eq_nil_all {p : Nat → Bool} {l : Line} (h : l.all p = true) :
    l.dropWhile p = [] := by
  induction l with
  | nil => rfl
  | cons c cs ih =>
    simp only [List.all_cons, Bool.and_eq_true] at h
    simp [List.dropWhile, h.1, ih h.2]

theorem takeWhile_eq_self_all {p : Nat → Bool} {l : Line} (h : l.all p = true) :
    l.takeWhile p = l := by
  induction l with
  | nil => rfl
  | cons c cs ih =>
    simp only [List.all_cons, Bool.and_eq_true] at h
    simp [List.takeWhile, h.1, ih h.2]

theorem all_reverse {p : Nat → Bool} {l : Line} (h : l.all p = true) :
    l.reverse.all p = true := by
  simp only [List.all_eq_true] at h ⊢
  intro c hc
  exact h c (List.mem_reverse.mp hc)

theorem dropWhile_nil_iff_all {p : Nat → Bool} {l : Line} :
    l.dropWhile p = [] ↔ l.all p = true := by
  induction l with
  | nil => simp
  | cons c cs ih =>
    by_cases hc : p c
    · simp [List.dropWhile, hc, ih]
    · simp [List.dropWhile, hc]

theorem dropWhile_append_ne {p : Nat → Bool} {x b : Line}
    (h : x.dropWhile p ≠ []) : (x ++ b).dropWhile p = x.dropWhile p ++ b := by
  induction x with
  | nil => simp at h
  | cons c cs ih =>
    by_cases hc : p c
    · simp only [List.dropWhile, hc] at h ⊢
      simpa [List.cons_append, List.dropWhile, hc] using ih h
    · simp [List.cons_append, List.dropWhile, hc]

/-- Stripping absorbs outer whitespace. -/
theorem stripWs_invar {a b x : Line} (ha : allWs a = true) (hb : allWs b = true) :
    stripWs (a ++ x ++ b) = stripWs x := by
  unfold stripWs
  rw [List.append_assoc, dropWhile_append_all ha]
  by_cases hx : x.dropWhile isSpaceCh = []
  · rw [dropWhile_append_all (dropWhile_nil_iff_all.mp hx),
      dropWhile_eq_nil_all hb, hx]
  · rw [dropWhile_append_ne hx, List.reverse_append,
      dropWhile_append_all (all_reverse hb)]

/-- A line with no whitespace at either end strips to itself. -/
theorem stripWs_id {l : Line} (h1 : isSpaceCh (l.headD 0) = false)
    (h2 : isSpaceCh (l.getLastD 0) = false) : stripWs l = l := by
  rcases l with _ | ⟨c, cs⟩
  · rfl
  · unfold stripWs
    simp only [List.headD_cons] at h1
    rw [dropWhile_cons_neg h1]
    rcases hr : (c :: cs).reverse with _ | ⟨d, ds⟩
    · exact absurd hr (by simp)
    · have hd : (c :: cs).getLastD 0 = d := by
        have h5 := List.head?_reverse (c :: cs)
        rw [hr] at h5
        rw [List.getLastD_eq_getLast?, ← h5]
        rfl
      rw [hd] at h2
      rw [dropWhile_cons_neg h2, ← hr, List.reverse_reverse]

/-- The decomposition a strip performs: whitespace margins around the
stripped core. -/
theorem stripWs_decomp (l : Line) :
    ∃ a b, l = a ++ stripWs l ++ b ∧ allWs a = true ∧ allWs b = true := by
  refine ⟨l.takeWhile isSpaceCh,
    ((l.dropWhile isSpaceCh).reverse.takeWhile isSpaceCh).reverse, ?_,
    List.all_takeWhile .., all_reverse (List.all_takeWhile ..)⟩
  conv_lhs => rw [← List.takeWhile_append_dropWhile (p := isSpaceCh) (l := l)]
  rw [List.append_assoc]
  congr 1
  conv_lhs => rw [← List.reverse_reverse (List.dropWhile isSpaceCh l),
    ← List.takeWhile_append_dropWhile (p := isSpaceCh)
      (l := (List.dropWhile isSpaceCh l).reverse)]
  rw [List.reverse_append]
  rfl

theorem splitNl_ne_nil (l : Line) : splitNl l ≠ [] := by
  cases l with
  | nil => simp [splitNl]
  | cons c cs =>
    simp only [splitNl]
    split
    · simp
    · rcases splitNl cs with _ | ⟨x, xs⟩ <;> simp

theorem joinNl_splitNl (l : Line) : joinNl (splitNl l) = l := by
  induction l with
  | nil => rfl
  | cons c cs ih =>
    obtain ⟨x, xs, hs⟩ : ∃ x xs, splitNl cs = x :: xs := by
      rcases h : splitNl cs with _ | ⟨x, xs⟩
      · exact absurd h (splitNl_ne_nil cs)
      · exact ⟨x, xs, rfl⟩
    rw [hs] at ih
    by_cases hc : c = 10
    · subst hc
      simp only [splitNl, if_pos rfl, hs]
      rcases xs with _ | ⟨y, ys⟩ <;> simpa [joinNl] using ih
    · simp only [splitNl, if_neg hc, hs]
      rcases xs with _ | ⟨y, ys⟩
      · simpa [joinNl] using congrArg (c :: ·) ih
      · simpa [joinNl, List.cons_append] using congrArg (c :: ·) ih

/-! ## Character-class lemmas -/

theorem isSpaceCh_upCh (c : Nat) : isSpaceCh (upCh c) = isSpaceCh c := by
  rw [Bool.eq_iff_iff]
  unfold upCh
  split
  · rename_i h
    unfold isLowerCh at h
    simp only [Bool.and_eq_true, decide_eq_true_eq] at h
    unfold isSpaceCh
    simp only [Bool.or_eq_true, decide_eq_true_eq]
    omega
  · exact Iff.rfl

theorem isDigitCh_upCh (c : Nat) : isDigitCh (upCh c) = isDigitCh c := by
  rw [Bool.eq_iff_iff]
  unfold upCh
  split
  · rename_i h
    unfold isLowerCh at h
    simp only [Bool.and_eq_true, decide_eq_true_eq] at h
    unfold isDigitCh
    simp only [Bool.and_eq_true, decide_eq_true_eq]
    omega
  · exact Iff.rfl

theorem isAlphaCh_upCh (c : Nat) : isAlphaCh (upCh c) = isAlphaCh c := by
  rw [Bool.eq_iff_iff]
  unfold upCh
  split
  · rename_i h
    unfold isLowerCh at h
    simp only [Bool.and_eq_true, decide_eq_true_eq] at h
    unfold isAlphaCh isUpperCh isLowerCh
    simp only [Bool.or_eq_true, Bool.and_eq_true, decide_eq_true_eq]
    omega
  · exact Iff.rfl

theorem isAlnumCh_upCh (c : Nat) : isAlnumCh (upCh c) = isAlnumCh c := by
  unfold isAlnumCh
  rw [isAlphaCh_upCh, isDigitCh_upCh]

theorem isWordCh_upCh (c : Nat) : isWordCh (upCh c) = isWordCh c := by
  unfold isWordCh
  rw [isAlnumCh_upCh, Bool.eq_iff_iff]
  unfold upCh
  split
  · rename_i h
    unfold isLowerCh at h
    simp only [Bool.and_eq_true, decide_eq_true_eq] at h
    unfold isAlnumCh isAlphaCh isUpperCh isLowerCh isDigitCh
    simp only [Bool.or_eq_true, Bool.and_eq_true, decide_eq_true_eq]
    omega
  · exact Iff.rfl

theorem ciEqCh_iff {a b : Nat} : ciEqCh a b = true ↔ upCh a = upCh b := by
  simp [ciEqCh]

theorem ciEqCh_space {a b : Nat} (h : ciEqCh a b = true) :
    isSpaceCh a = isSpaceCh b := by
  rw [← isSpaceCh_upCh a, ← isSpaceCh_upCh b, ciEqCh_iff.mp h]

theorem ciEqCh_digit {a b : Nat} (h : ciEqCh a b = true) :
    isDigitCh a = isDigitCh b := by
  rw [← isDigitCh_upCh a, ← isDigitCh_upCh b, ciEqCh_iff.mp h]

theorem ciEqCh_alpha {a b : Nat} (h : ciEqCh a b = true) :
    isAlphaCh a = isAlphaCh b := by
  rw [← isAlphaCh_upCh a, ← isAlphaCh_upCh b, ciEqCh_iff.mp h]

theorem ciEqCh_alnum {a b : Nat} (h : ciEqCh a b = true) :
    isAlnumCh a = isAlnumCh b := by
  rw [← isAlnumCh_upCh a, ← isAlnumCh_upCh b, ciEqCh_iff.mp h]

theorem ciEqCh_word {a b : Nat} (h : ciEqCh a b = true) :
    isWordCh a = isWordCh b := by
  rw [← isWordCh_upCh a, ← isWordCh_upCh b, ciEqCh_iff.mp h]

theorem alpha_not_digit {c : Nat} (h : isAlphaCh c = true) : isDigitCh c = false := by
  unfold isAlphaCh isUpperCh isLowerCh at h
  simp only [Bool.or_eq_true, Bool.and_eq_true, decide_eq_true_eq] at h
  unfold isDigitCh
  simp only [Bool.and_eq_true, decide_eq_true_eq, Bool.eq_false_iff, ne_eq, not_and, not_le]
  omega

theorem alnum_not_space {c : Nat} (h : isAlnumCh c = true) : isSpaceCh c = false := by
  unfold isAlnumCh isAlphaCh isUpperCh isLowerCh isDigitCh at h
  simp only [Bool.or_eq_true, Bool.and_eq_true, decide_eq_true_eq] at h
  unfold isSpaceCh
  simp only [Bool.or_eq_true, decide_eq_true_eq, Bool.eq_false_iff, ne_eq]
  omega

theorem digit_not_space {c : Nat} (h : isDigitCh c = true) : isSpaceCh c = false := by
  unfold isDigitCh at h
  simp only [Bool.and_eq_true, decide_eq_true_eq] at h
  unfold isSpaceCh
  simp only [Bool.or_eq_true, decide_eq_true_eq, Bool.eq_false_iff, ne_eq]
  omega

theorem alpha_alnum {c : Nat} (h : isAlphaCh c = true) : isAlnumCh c = true := by
  unfold isAlnumCh
  rw [h]
  rfl

theorem alnum_word {c : Nat} (h : isAlnumCh c = true) : isWordCh c = true := by
  unfold isWordCh
  rw [h]
  rfl

theorem space_not_word {c : Nat} (h : isSpaceCh c = true) : isWordCh c = false := by
  unfold isSpaceCh at h
  simp only [Bool.or_eq_true, decide_eq_true_eq] at h
  unfold isWordCh isAlnumCh isAlphaCh isUpperCh isLowerCh isDigitCh
  simp only [Bool.or_eq_true, Bool.and_eq_true, decide_eq_true_eq, Bool.eq_false_iff, ne_eq]
  omega

theorem upCh_upCh (c : Nat) : upCh (upCh c) = upCh c := by
  unfold upCh isLowerCh
  split
  · rename_i h
    simp only [Bool.and_eq_true, decide_eq_true_eq] at h
    split
    · rename_i h2
      simp only [Bool.and_eq_true, decide_eq_true_eq] at h2
      omega
    · rfl
  · rfl

theorem ciEqCh_upCh_self (c : Nat) : ciEqCh c (upCh c) = true := by
  rw [ciEqCh_iff, upCh_upCh]

/-! ## Lemmas on case-insensitive literal matching -/

theorem ciEqL_length {a b : Line} (h : ciEqL a b = true) : a.length = b.length := by
  induction a generalizing b with
  | nil => cases b <;> simp_all [ciEqL]
  | cons c cs ih =>
    cases b with
    | nil => simp [ciEqL] at h
    | cons d ds =>
      simp only [ciEqL, Bool.and_eq_true] at h
      simp [ih h.2]

theorem ciEqL_iff_map_upCh {a b : Line} :
    ciEqL a b = true ↔ a.map upCh = b.map upCh := by
  induction a generalizing b with
  | nil => cases b <;> simp [ciEqL]
  | cons c cs ih =>
    cases b with
    | nil => simp [ciEqL]
    | cons d ds =>
      simp only [ciEqL, Bool.and_eq_true, List.map_cons, List.cons.injEq, ciEqCh_iff]
      rw [ih]

theorem ciDrop_some {pat l r : Line} (h : ciDrop pat l = some r) :
    ∃ m, l = m ++ r ∧ ciEqL pat m = true := by
  induction pat generalizing l with
  | nil =>
    refine ⟨[], ?_, rfl⟩
    simp only [ciDrop, Option.some.injEq] at h
    simp [h]
  | cons p ps ih =>
    cases l with
    | nil => simp [ciDrop] at h
    | cons c cs =>
      simp only [ciDrop] at h
      split at h
      · obtain ⟨m, hm, hci⟩ := ih h
        rename_i hpc
        exact ⟨c :: m, by simp [hm], by simp [ciEqL, hpc, hci]⟩
      · exact absurd h (by simp)

theorem ciDrop_append {pat m r : Line} (h : ciEqL pat m = true) :
    ciDrop pat (m ++ r) = some r := by
  induction pat generalizing m with
  | nil => cases m <;> simp_all [ciEqL, ciDrop]
  | cons p ps ih =>
    cases m with
    | nil => simp [ciEqL] at h
    | cons c cs =>
      simp only [ciEqL, Bool.and_eq_true] at h
      simp [ciDrop, h.1, ih h.2]

/-! ## Characterization of the definition-line pattern -/

theorem space_not_digit {c : Nat} (h : isSpaceCh c = true) : isDigitCh c = false := by
  cases hd : isDigitCh c
  · rfl
  · rw [digit_not_space hd] at h
    exact absurd h (by simp)

theorem space_not_alnum {c : Nat} (h : isSpaceCh c = true) : isAlnumCh c = false := by
  cases hd : isAlnumCh c
  · rfl
  · rw [alnum_not_space hd] at h
    exact absurd h (by simp)

theorem takeWhile_length_drop {p : Nat → Bool} (l : Line) :
    l.drop (l.takeWhile p).length = l.dropWhile p := by
  induction l with
  | nil => rfl
  | cons c cs ih =>
    by_cases hc : p c
    · simp [List.takeWhile, List.dropWhile, hc, ih]
    · simp [List.takeWhile, List.dropWhile, hc]

theorem takeWhile_nil_of_head {p : Nat → Bool} {l : Line}
    (h : ∀ c cs, l = c :: cs → p c = false) : l.takeWhile p = [] := by
  cases l with
  | nil => rfl
  | cons c cs => exact takeWhile_cons_neg (h c cs rfl)

theorem all_getLastD {p : Nat → Bool} {l : Line} (hne : l ≠ [])
    (h : l.all p = true) : p (l.getLastD 0) = true := by
  induction l with
  | nil => exact absurd rfl hne
  | cons c cs ih =>
    cases cs with
    | nil => simpa using h
    | cons d ds =>
      simp only [List.all_cons, Bool.and_eq_true] at h
      simpa [List.getLastD] using ih (by simp) (by simp [h.2.1, h.2.2])

theorem headD_append_left {x y : Line} (h : x ≠ []) :
    (x ++ y).headD 0 = x.headD 0 := by
  cases x with
  | nil => exact absurd rfl h
  | cons c cs => rfl

theorem getLastD_append_right {x t : Line} (h : t ≠ []) :
    (x ++ t).getLastD 0 = t.getLastD 0 := by
  rw [List.getLastD_eq_getLast?, List.getLastD_eq_getLast?, List.getLast?_append]
  cases ht : t.getLast? with
  | none => exact absurd (List.getLast?_eq_none_iff.mp ht) h
  | some a => rfl

theorem validTok_elim {n : Line} (h : validTok n = true) :
    n ≠ [] ∧ isAlphaCh (n.headD 0) = true ∧ n.all isAlnumCh = true := by
  cases n with
  | nil => simp [validTok] at h
  | cons c cs =>
    simp only [validTok, Bool.and_eq_true] at h
    exact ⟨by simp, h.1, by simp [alpha_alnum h.1, h.2]⟩

theorem validTok_of {n : Line} (h1 : n ≠ []) (h2 : isAlphaCh (n.headD 0) = true)
    (h3 : n.all isAlnumCh = true) : validTok n = true := by
  cases n with
  | nil => exact absurd rfl h1
  | cons c cs =>
    simp only [List.all_cons, Bool.and_eq_true] at h3
    simp only [List.headD_cons] at h2
    simp [validTok, h2, h3.2]

theorem parseLabel_split (x : Line) :
    ∃ lab, x = lab ++ parseLabel x ∧
      (lab = [] ∨ ∃ d wd, lab = d ++ wd ∧ d ≠ [] ∧ allDigit d = true ∧
        wd ≠ [] ∧ allWs wd = true) := by
  unfold parseLabel
  by_cases hds : (x.takeWhile isDigitCh).isEmpty = true
  · exact ⟨[], by simp only [List.nil_append]; rw [if_pos hds], Or.inl rfl⟩
  · rw [if_neg hds]
    by_cases hw : ((x.drop (x.takeWhile isDigitCh).length).takeWhile
        isSpaceCh).isEmpty = true
    · rw [if_pos hw]
      exact ⟨[], by simp, Or.inl rfl⟩
    · rw [if_neg hw]
      refine ⟨x.takeWhile isDigitCh ++
        (x.drop (x.takeWhile isDigitCh).length).takeWhile isSpaceCh, ?_,
        Or.inr ⟨_, _, rfl, by simpa using hds, List.all_takeWhile ..,
          by simpa using hw, List.all_takeWhile ..⟩⟩
      rw [List.append_assoc]
      conv_lhs => rw [← List.takeWhile_append_dropWhile (p := isDigitCh) (l := x)]
      congr 1
      rw [takeWhile_length_drop]
      conv_lhs => rw [← List.takeWhile_append_dropWhile (p := isSpaceCh)
        (l := x.dropWhile isDigitCh)]
      congr 1
      rw [takeWhile_length_drop]

theorem pk_facts {pk : Line} (h : ciEqL kwPROC pk = true) :
    ∃ p ps, pk = p :: ps ∧ isSpaceCh p = false ∧ isDigitCh p = false ∧
      isAlphaCh p = true := by
  cases pk with
  | nil => simp [kwPROC, ciEqL] at h
  | cons p ps =>
    simp only [kwPROC, ciEqL, Bool.and_eq_true] at h
    have h80 := h.1
    refine ⟨p, ps, rfl, ?_, ?_, ?_⟩
    · rw [← ciEqCh_space h80]; rfl
    · rw [← ciEqCh_digit h80]; rfl
    · rw [← ciEqCh_alpha h80]; rfl

theorem lab_head_not_space {lab pk r : Line} (hlab : LabOk lab)
    (hpk : ciEqL kwPROC pk = true) :
    isSpaceCh ((lab ++ pk ++ r).headD 0) = false ∧ lab ++ pk ++ r ≠ [] := by
  obtain ⟨p, ps, hpkeq, hpws, _, _⟩ := pk_facts hpk
  rcases hlab with rfl | ⟨d, wd, rfl, hdne, hdall, _, _⟩
  · subst hpkeq
    simp [hpws]
  · cases d with
    | nil => exact absurd rfl hdne
    | cons e es =>
      simp only [allDigit, List.all_cons, Bool.and_eq_true] at hdall
      simp [digit_not_space hdall.1]

theorem dropWhile_ws_head {y : Line} (h : isSpaceCh (y.headD 0) = false) :
    y.dropWhile isSpaceCh = y := by
  cases y with
  | nil => rfl
  | cons c cs => exact dropWhile_cons_neg (by simpa using h)

theorem parseAfterKw_some {r1 N : Line} (h : parseAfterKw r1 = some N) :
    ∃ w2 tok w3, r1 = w2 ++ tok ++ w3 ∧ w2 ≠ [] ∧ allWs w2 = true ∧
      validTok tok = true ∧ allWs w3 = true ∧ N = tok.map upCh := by
  simp only [parseAfterKw] at h
  by_cases hw2 : (r1.takeWhile isSpaceCh).isEmpty = true
  · rw [if_pos hw2] at h
    exact absurd h (by simp)
  · rw [if_neg hw2] at h
    by_cases hal : isAlphaCh ((r1.drop (r1.takeWhile isSpaceCh).length).headD 0) = true
    · rw [if_pos hal] at h
      by_cases htr : (((r1.drop (r1.takeWhile isSpaceCh).length).drop
          ((r1.drop (r1.takeWhile isSpaceCh).length).takeWhile isAlnumCh).length).dropWhile
            isSpaceCh).isEmpty = true
      · rw [if_pos htr] at h
        simp only [Option.some.injEq] at h
        rw [takeWhile_length_drop] at hal htr h
        refine ⟨r1.takeWhile isSpaceCh,
          (r1.dropWhile isSpaceCh).takeWhile isAlnumCh,
          (r1.dropWhile isSpaceCh).drop
            ((r1.dropWhile isSpaceCh).takeWhile isAlnumCh).length,
          ?_, by simpa using hw2, List.all_takeWhile .., ?_, ?_, h.symm⟩
        · conv_lhs => rw [← List.takeWhile_append_dropWhile (p := isSpaceCh) (l := r1)]
          rw [List.append_assoc]
          congr 1
          conv_lhs => rw [← List.takeWhile_append_dropWhile (p := isAlnumCh)
            (l := r1.dropWhile isSpaceCh)]
          congr 1
          rw [takeWhile_length_drop]
        · have hne : r1.dropWhile isSpaceCh ≠ [] := by
            intro hnil
            rw [hnil] at hal
            exact absurd hal (by decide)
          obtain ⟨c, cs, hc⟩ : ∃ c cs, r1.dropWhile isSpaceCh = c :: cs := by
            cases hx : r1.dropWhile isSpaceCh with
            | nil => exact absurd hx hne
            | cons c cs => exact ⟨c, cs, rfl⟩
          rw [hc] at hal ⊢
          simp only [List.headD_cons] at hal
          rw [List.takeWhile_cons, if_pos (alpha_alnum hal)]
          exact validTok_of (by simp) (by simpa using hal)
            (by
              have := List.all_takeWhile (p := isAlnumCh) (l := c :: cs)
              rw [List.takeWhile_cons, if_pos (alpha_alnum hal)] at this
              exact this)
        · rw [takeWhile_length_drop]
          rw [takeWhile_length_drop] at htr
          exact dropWhile_nil_iff_all.mp (List.isEmpty_iff.mp htr)
      · rw [if_neg htr] at h
        exact absurd h (by simp)
    · rw [if_neg hal] at h
      exact absurd h (by simp)

theorem parseAfterKw_eval {w2 tok w3 : Line} (hw2ne : w2 ≠ [])
    (hw2 : allWs w2 = true) (ht : validTok tok = true) (hw3 : allWs w3 = true) :
    parseAfterKw (w2 ++ tok ++ w3) = some (tok.map upCh) := by
  obtain ⟨htne, hthd, htall⟩ := validTok_elim ht
  obtain ⟨c, cs, rfl⟩ : ∃ c cs, tok = c :: cs := by
    cases tok with
    | nil => exact absurd rfl htne
    | cons c cs => exact ⟨c, cs, rfl⟩
  simp only [List.headD_cons] at hthd
  have hcws : isSpaceCh c = false := alnum_not_space (alpha_alnum hthd)
  have h1 : (w2 ++ (c :: cs) ++ w3).takeWhile isSpaceCh = w2 := by
    rw [List.append_assoc, takeWhile_append_all hw2, List.cons_append,
      takeWhile_cons_neg hcws, List.append_nil]
  have h2 : (w2 ++ (c :: cs) ++ w3).drop w2.length = (c :: cs) ++ w3 := by
    rw [List.append_assoc, List.drop_left]
  simp only [parseAfterKw, h1, h2]
  rw [if_neg (by simpa using hw2ne)]
  have h3 : ((c :: cs) ++ w3).takeWhile isAlnumCh = c :: cs := by
    rw [takeWhile_append_all (by simpa using htall)]
    rw [takeWhile_nil_of_head (fun e es he => by
      have : isSpaceCh e = true := by
        rw [he] at hw3
        simp only [allWs, List.all_cons, Bool.and_eq_true] at hw3
        exact hw3.1
      exact space_not_alnum this), List.append_nil]
  rw [if_pos (by simpa using hthd)]
  rw [h3, List.drop_left, dropWhile_eq_nil_all hw3]
  rfl

theorem parseLabel_eval {lab pk rest : Line} (hlab : LabOk lab)
    (hpk : ciEqL kwPROC pk = true) :
    parseLabel (lab ++ pk ++ rest) = pk ++ rest := by
  obtain ⟨p, ps, hpkeq, hpws, hpd, _⟩ := pk_facts hpk
  rcases hlab with rfl | ⟨d, wd, rfl, hdne, hdall, hwdne, hwdall⟩
  · subst hpkeq
    unfold parseLabel
    rw [List.nil_append, List.cons_append, takeWhile_cons_neg hpd]
    rfl
  · unfold parseLabel
    have h1 : (d ++ wd ++ pk ++ rest).takeWhile isDigitCh = d := by
      rw [List.append_assoc, List.append_assoc, takeWhile_append_all hdall,
        takeWhile_nil_of_head (fun e es he => by
          cases wd with
          | nil => exact absurd rfl hwdne
          | cons f fs =>
            simp only [allWs, List.all_cons, Bool.and_eq_true] at hwdall
            simp only [List.cons_append] at he
            cases he
            exact space_not_digit hwdall.1), List.append_nil]
    rw [h1]
    rw [if_neg (by simpa using hdne)]
    have h2 : (d ++ wd ++ pk ++ rest).drop d.length = wd ++ pk ++ rest := by
      rw [List.append_assoc, List.append_assoc, List.drop_left, ← List.append_assoc]
    rw [h2]
    have h3 : (wd ++ pk ++ rest).takeWhile isSpaceCh = wd := by
      subst hpkeq
      rw [List.append_assoc, takeWhile_append_all hwdall, List.cons_append,
        takeWhile_cons_neg hpws, List.append_nil]
    rw [h3, if_neg (by simpa using hwdne), List.append_assoc, List.drop_left]

theorem parseDefLine_some_iff {l N : Line} :
    parseDefLine l = some N ↔ DefStmt l N := by
  constructor
  · intro h
    unfold parseDefLine at h
    rcases hcd : ciDrop kwPROC (parseLabel (l.dropWhile isSpaceCh)) with _ | r1
    · rw [hcd] at h
      exact absurd h (by simp)
    · rw [hcd] at h
      obtain ⟨lab, hsplit, hlab⟩ := parseLabel_split (l.dropWhile isSpaceCh)
      obtain ⟨pk, hpk1, hpk2⟩ := ciDrop_some hcd
      obtain ⟨w2, tok, w3, hr1, hw2ne, hw2, htok, hw3, hN⟩ := parseAfterKw_some h
      refine ⟨l.takeWhile isSpaceCh, lab, pk, w2, tok, w3, ?_, List.all_takeWhile ..,
        hlab, hpk2, hw2ne, hw2, htok, hw3, hN⟩
      conv_lhs => rw [← List.takeWhile_append_dropWhile (p := isSpaceCh) (l := l)]
      rw [hsplit, hpk1, hr1]
      simp [List.append_assoc]
  · rintro ⟨w0, lab, pk, w2, tok, w3, rfl, hw0, hlab, hpk, hw2ne, hw2, htok, hw3, rfl⟩
    unfold parseDefLine
    have hh := lab_head_not_space (r := w2 ++ tok ++ w3) hlab hpk
    have h0 : (w0 ++ lab ++ pk ++ w2 ++ tok ++ w3).dropWhile isSpaceCh
        = lab ++ pk ++ (w2 ++ tok ++ w3) := by
      have e1 : w0 ++ lab ++ pk ++ w2 ++ tok ++ w3
          = w0 ++ (lab ++ pk ++ (w2 ++ tok ++ w3)) := by
        simp [List.append_assoc]
      rw [e1, dropWhile_append_all hw0, dropWhile_ws_head hh.1]
    rw [h0, parseLabel_eval hlab hpk, ciDrop_append hpk]
    exact parseAfterKw_eval hw2ne hw2 htok hw3

theorem allWs_append {x y : Line} :
    allWs (x ++ y) = (allWs x && allWs y) := by
  simp [allWs, List.all_append]

/-- The scanner's test `re.match(..., line.strip())` accepts a raw line
exactly when the raw line itself decomposes as a definition statement. -/
theorem parseDefLine_strip_iff {l N : Line} :
    parseDefLine (stripWs l) = some N ↔ DefStmt l N := by
  rw [parseDefLine_some_iff]
  constructor
  · rintro ⟨w0, lab, pk, w2, tok, w3, heq, hw0, hlab, hpk, hw2ne, hw2, htok, hw3, hN⟩
    obtain ⟨a, b, hl, ha, hb⟩ := stripWs_decomp l
    refine ⟨a ++ w0, lab, pk, w2, tok, w3 ++ b, ?_, ?_, hlab, hpk, hw2ne, hw2,
      htok, ?_, hN⟩
    · rw [hl, heq]
      simp [List.append_assoc]
    · rw [allWs_append, ha, hw0]
      rfl
    · rw [allWs_append, hw3, hb]
      rfl
  · rintro ⟨w0, lab, pk, w2, tok, w3, rfl, hw0, hlab, hpk, hw2ne, hw2, htok, hw3, hN⟩
    obtain ⟨htne, hthd, htall⟩ := validTok_elim htok
    have hcore : stripWs (w0 ++ lab ++ pk ++ w2 ++ tok ++ w3)
        = lab ++ pk ++ w2 ++ tok := by
      have e1 : w0 ++ lab ++ pk ++ w2 ++ tok ++ w3
          = w0 ++ (lab ++ pk ++ w2 ++ tok) ++ w3 := by
        simp [List.append_assoc]
      rw [e1, stripWs_invar hw0 hw3]
      apply stripWs_id
      · have hh := lab_head_not_space (r := w2 ++ tok) hlab hpk
        have e2 : lab ++ pk ++ w2 ++ tok = lab ++ pk ++ (w2 ++ tok) := by
          simp [List.append_assoc]
        rw [e2]
        exact hh.1
      · have e3 : lab ++ pk ++ w2 ++ tok = (lab ++ pk ++ w2) ++ tok := by
          simp [List.append_assoc]
        rw [e3, getLastD_append_right htne]
        exact alnum_not_space (all_getLastD htne htall)
    refine ⟨[], lab, pk, w2, tok, [], ?_, rfl, hlab, hpk, hw2ne, hw2, htok, rfl, hN⟩
    rw [hcore]
    simp

theorem addDef_lookupD (m : List (Line × List Nat)) (n k : Line) (i : Nat) :
    lookupD (addDef m n i) k
      = if k = n then lookupD m n ++ [i] else lookupD m k := by
  induction m with
  | nil =>
    by_cases h : k = n
    · subst h
      simp [addDef, lookupD, lookupA]
    · have h' : ¬n = k := fun hh => h hh.symm
      simp [addDef, lookupD, lookupA, h, h']
  | cons p rest ih =>
    obtain ⟨k0, v⟩ := p
    by_cases h0 : k0 = n
    · subst h0
      by_cases h1 : k0 = k
      · subst h1
        simp [addDef, lookupD, lookupA]
      · have h1' : ¬k = k0 := fun hh => h1 hh.symm
        simp [addDef, lookupD, lookupA, h1, h1']
    · by_cases h1 : k0 = k
      · subst h1
        have h0' : ¬k0 = n := h0
        simp [addDef, lookupD, lookupA, h0, h0']
      · simp only [addDef, if_neg h0]
        simp only [lookupD, lookupA, if_neg h1]
        have h2 := ih
        simp only [lookupD] at h2
        rw [h2, if_neg h0]

theorem findAllGo_lookupD (ls : List Line) :
    ∀ (i0 : Nat) (m : List (Line × List Nat)) (k : Line),
      lookupD (findAllGo i0 ls m) k = lookupD m k ++ defIdxs k i0 ls := by
  induction ls with
  | nil =>
    intro i0 m k
    simp [findAllGo, defIdxs]
  | cons l ls ih =>
    intro i0 m k
    simp only [findAllGo, defIdxs]
    cases hp : parseDefLine (stripWs l) with
    | none =>
      rw [ih]
      rw [if_neg (by simp [hp])]
      simp
    | some n =>
      rw [ih, addDef_lookupD]
      by_cases hk : k = n
      · subst hk
        rw [if_pos rfl, if_pos rfl, List.append_assoc]
      · rw [if_neg hk, if_neg (fun hh => hk (Option.some.inj hh).symm)]
        simp

theorem mem_defIdxs {N : Line} {i : Nat} {ls : List Line} : ∀ {i0 : Nat},
    i ∈ defIdxs N i0 ls ↔
      ∃ j l, ls.get? j = some l ∧ i = i0 + j ∧
        parseDefLine (stripWs l) = some N := by
  induction ls with
  | nil => simp [defIdxs]
  | cons l ls ih =>
    intro i0
    simp only [defIdxs, List.mem_append]
    constructor
    · rintro (h | h)
      · by_cases hp : parseDefLine (stripWs l) = some N
        · rw [if_pos hp] at h
          simp only [List.mem_singleton] at h
          exact ⟨0, l, rfl, by omega, hp⟩
        · rw [if_neg hp] at h
          simp at h
      · obtain ⟨j, l', hg, hi, hp⟩ := ih.mp h
        exact ⟨j + 1, l', by simpa using hg, by omega, hp⟩
    · rintro ⟨j, l', hg, hi, hp⟩
      cases j with
      | zero =>
        simp only [List.get?_cons_zero, Option.some.injEq] at hg
        subst hg
        left
        rw [if_pos hp]
        simp
        omega
      | succ j =>
        right
        exact ih.mpr ⟨j, l', by simpa using hg, by omega, hp⟩

/-- Membership of a line index in a name's DefinitionIndex entry, stated on
the whole pipeline input. -/
theorem find_all_mem {content : Line} {N : Line} {i : Nat} :
    i ∈ lookupD (find_all_procedures content) N ↔
      ∃ l, (splitNl content).get? i = some l ∧
        parseDefLine (stripWs l) = some N := by
  unfold find_all_procedures
  rw [findAllGo_lookupD]
  simp only [lookupD, lookupA, Option.getD_none, List.nil_append]
  rw [mem_defIdxs]
  constructor
  · rintro ⟨j, l, hg, hi, hp⟩
    exact ⟨l, by simpa [hi] using hg, hp⟩
  · rintro ⟨l, hg, hp⟩
    exact ⟨i, l, hg, by omega, hp⟩

/-! ## Blank and comment lines -/

theorem stripWs_head_decomp (l : Line) :
    ∃ w, l.dropWhile isSpaceCh = stripWs l ++ w ∧ allWs w = true := by
  refine ⟨((l.dropWhile isSpaceCh).reverse.takeWhile isSpaceCh).reverse, ?_,
    all_reverse (List.all_takeWhile ..)⟩
  conv_lhs => rw [← List.reverse_reverse (List.dropWhile isSpaceCh l),
    ← List.takeWhile_append_dropWhile (p := isSpaceCh)
      (l := (List.dropWhile isSpaceCh l).reverse)]
  rw [List.reverse_append]
  rfl

theorem stripWs_nil_of_all {l : Line} (h : allWs l = true) : stripWs l = [] := by
  unfold stripWs
  rw [dropWhile_eq_nil_all h]
  rfl

theorem parseDefLine_blank {l : Line} (h : allWs l = true) :
    parseDefLine (stripWs l) = none := by
  rw [stripWs_nil_of_all h]
  rfl

theorem parseDefLine_comment {l : Line} (h : (stripWs l).headD 0 = 35) :
    parseDefLine (stripWs l) = none := by
  obtain ⟨c, cs, hc⟩ : ∃ c cs, stripWs l = c :: cs := by
    cases hx : stripWs l with
    | nil => rw [hx] at h; exact absurd h (by decide)
    | cons c cs => exact ⟨c, cs, rfl⟩
  rw [hc] at h
  simp only [List.headD_cons] at h
  subst h
  rw [hc]
  rfl

theorem rewriterDefMatch_blank {l : Line} (h : allWs l = true) (n : Line) :
    rewriterDefMatch l n = none := by
  simp only [rewriterDefMatch]
  rw [takeWhile_length_drop (p := isSpaceCh) (l := l), dropWhile_eq_nil_all h]
  rfl

theorem rewriterDefMatch_comment {l : Line} (h : (stripWs l).headD 0 = 35)
    (n : Line) : rewriterDefMatch l n = none := by
  obtain ⟨w, hw, hwall⟩ := stripWs_head_decomp l
  obtain ⟨c, cs, hc⟩ : ∃ c cs, stripWs l = c :: cs := by
    cases hx : stripWs l with
    | nil => rw [hx] at h; exact absurd h (by decide)
    | cons c cs => exact ⟨c, cs, rfl⟩
  rw [hc] at h hw
  simp only [List.headD_cons] at h
  subst h
  rw [List.cons_append] at hw
  simp only [rewriterDefMatch]
  rw [takeWhile_length_drop (p := isSpaceCh) (l := l), hw]
  rfl

theorem commentOrBlank_of_head {l : Line} (h : (stripWs l).headD 0 = 35) :
    commentOrBlank l = true := by
  unfold commentOrBlank
  rw [h]
  simp

/-- C10 helper: one rewriting step leaves a comment line unchanged. -/
theorem rewriteStep_comment {orig : Line} (h : (stripWs orig).headD 0 = 35)
    (e : Line × Line) : rewriteStep orig orig e = orig := by
  unfold rewriteStep
  rw [rewriterDefMatch_comment h, commentOrBlank_of_head h]
  simp

theorem foldl_fixed {α β : Type} {f : α → β → α} {a : α}
    (h : ∀ e, f a e = a) : ∀ l : List β, l.foldl f a = a := by
  intro l
  induction l with
  | nil => rfl
  | cons e es ih => simp [List.foldl_cons, h e, ih]

/-! ## Claim theorems: C6, C8, C10 -/

/-- C6: `find_all_procedures` records a line index for a name exactly when
the line's entire trimmed content consists of an optional numeric line-label,
the `PROC` keyword, one or more spaces, a procedure-name token (a letter
followed by letters and digits) and nothing else except trailing whitespace,
matched case-insensitively and recorded under the upper-cased token; in
particular a line with any extra token after the name is never recorded. -/
theorem C6_def_scanner_exact (content N : Line) (i : Nat) :
    i ∈ lookupD (find_all_procedures content) N ↔
      ∃ l, (splitNl content).get? i = some l ∧ DefStmt l N := by
  rw [find_all_mem]
  constructor
  · rintro ⟨l, hg, hp⟩
    exact ⟨l, hg, parseDefLine_strip_iff.mp hp⟩
  · rintro ⟨l, hg, hp⟩
    exact ⟨l, hg, parseDefLine_strip_iff.mpr hp⟩

/-- C8: when the input contains no definition line, the known-procedure set
and the name mapping are empty, and the pipeline's output is identical to
its input. -/
theorem C8_no_procedures_id (content : Line)
    (h : find_all_procedures content = []) :
    analyzePipeline content = content := by
  unfold analyzePipeline replace_procedures_and_calls
  rw [h]
  have hmap : generate_short_names (keysA ([] : List (Line × List Nat))) = [] := rfl
  rw [hmap]
  have hid : rewriteLine [] = id := funext fun o => rfl
  rw [hid, List.map_id, joinNl_splitNl]

/-- C8 at a concrete input with no definition line. -/
theorem C8_no_procedures_id_witness :
    find_all_procedures (s2l "10 PRINT 1\n# PROC ALPHA") = [] ∧
      analyzePipeline (s2l "10 PRINT 1\n# PROC ALPHA")
        = s2l "10 PRINT 1\n# PROC ALPHA" :=
  ⟨by decide, C8_no_procedures_id _ (by decide)⟩

/-- C10: a line whose trimmed content begins with `#` passes through the
Rewriter verbatim under every name mapping: the definition pattern cannot
match it, and the substitution branch is skipped for it. -/
theorem C10_comment_lines_unchanged (mapping : List (Line × Line)) (orig : Line)
    (h : (stripWs orig).headD 0 = 35) :
    (∀ n, rewriterDefMatch orig n = none) ∧ rewriteLine mapping orig = orig := by
  refine ⟨rewriterDefMatch_comment h, ?_⟩
  unfold rewriteLine
  exact foldl_fixed (fun e => rewriteStep_comment h e) mapping

/-- C10 at a concrete comment line and mapping. -/
theorem C10_comment_lines_unchanged_witness :
    (stripWs (s2l "  # PROC ALPHA")).headD 0 = 35 ∧
      rewriteLine [(s2l "ALPHA", s2l "A")] (s2l "  # PROC ALPHA")
        = s2l "  # PROC ALPHA" :=
  ⟨by decide,
    (C10_comment_lines_unchanged [(s2l "ALPHA", s2l "A")] _ (by decide)).2⟩

/-! ## The allocator's processing order -/

theorem lexLeB_total (a b : Line) : lexLeB a b = true ∨ lexLeB b a = true := by
  induction a generalizing b with
  | nil => exact Or.inl rfl
  | cons x xs ih =>
    cases b with
    | nil => exact Or.inr rfl
    | cons y ys =>
      rcases Nat.lt_trichotomy x y with h | h | h
      · exact Or.inl (by simp [lexLeB, h])
      · subst h
        rcases ih ys with h2 | h2
        · exact Or.inl (by simp [lexLeB, h2])
        · exact Or.inr (by simp [lexLeB, h2])
      · exact Or.inr (by simp [lexLeB, h])

theorem lexLeB_trans {a b c : Line} (h1 : lexLeB a b = true)
    (h2 : lexLeB b c = true) : lexLeB a c = true := by
  induction a generalizing b c with
  | nil => rfl
  | cons x xs ih =>
    cases b with
    | nil => simp [lexLeB] at h1
    | cons y ys =>
      cases c with
      | nil => simp [lexLeB] at h2
      | cons z zs =>
        simp only [lexLeB, Bool.or_eq_true, Bool.and_eq_true,
          decide_eq_true_eq] at h1 h2 ⊢
        rcases h1 with h1 | ⟨rfl, h1⟩
        · rcases h2 with h2 | ⟨rfl, h2⟩
          · exact Or.inl (by omega)
          · exact Or.inl h1
        · rcases h2 with h2 | ⟨rfl, h2⟩
          · exact Or.inl h2
          · exact Or.inr ⟨rfl, ih h1 h2⟩

theorem lexLeB_antisymm {a b : Line} (h1 : lexLeB a b = true)
    (h2 : lexLeB b a = true) : a = b := by
  induction a generalizing b with
  | nil =>
    cases b with
    | nil => rfl
    | cons y ys => simp [lexLeB] at h2
  | cons x xs ih =>
    cases b with
    | nil => simp [lexLeB] at h1
    | cons y ys =>
      simp only [lexLeB, Bool.or_eq_true, Bool.and_eq_true,
        decide_eq_true_eq] at h1 h2
      rcases h1 with h1 | ⟨rfl, h1⟩
      · rcases h2 with h2 | ⟨rfl, h2⟩
        · omega
        · omega
      · rcases h2 with h2 | ⟨_, h2⟩
        · omega
        · rw [ih h1 h2]

theorem keyLe_refl (a : Line) : keyLe a a := by
  unfold keyLe keyLeB
  have : lexLeB a a = true := by
    rcases lexLeB_total a a with h | h <;> exact h
  simp [this]

theorem keyLe_total (a b : Line) : keyLe a b ∨ keyLe b a := by
  unfold keyLe keyLeB
  rcases Nat.lt_trichotomy a.length b.length with h | h | h
  · exact Or.inl (by simp [h])
  · rcases lexLeB_total a b with h2 | h2
    · exact Or.inl (by simp [h, h2])
    · exact Or.inr (by simp [h.symm, h2])
  · exact Or.inr (by simp [h])

theorem keyLe_trans {a b c : Line} (h1 : keyLe a b) (h2 : keyLe b c) :
    keyLe a c := by
  unfold keyLe keyLeB at h1 h2 ⊢
  simp only [Bool.or_eq_true, Bool.and_eq_true, decide_eq_true_eq] at h1 h2 ⊢
  rcases h1 with h1 | ⟨h1, h1'⟩
  · rcases h2 with h2 | ⟨h2, _⟩
    · exact Or.inl (by omega)
    · exact Or.inl (by omega)
  · rcases h2 with h2 | ⟨h2, h2'⟩
    · exact Or.inl (by omega)
    · exact Or.inr ⟨by omega, lexLeB_trans h1' h2'⟩

instance : IsTotal Line keyLe := ⟨keyLe_total⟩

instance : IsTrans Line keyLe := ⟨fun _ _ _ => keyLe_trans⟩

theorem keyLe_length {a b : Line} (h : keyLe a b) : a.length ≤ b.length := by
  unfold keyLe keyLeB at h
  simp only [Bool.or_eq_true, Bool.and_eq_true, decide_eq_true_eq] at h
  rcases h with h | ⟨h, _⟩ <;> omega

theorem sortNames_perm (names : List Line) : (sortNames names).Perm names :=
  List.perm_insertionSort keyLe names

theorem sortNames_pairwise (names : List Line) :
    List.Pairwise keyLe (sortNames names) :=
  List.sorted_insertionSort keyLe names

/-! ## Prefix lemmas -/

theorem isPref_take (n : Line) (k : Nat) : isPref (n.take k) n = true := by
  induction n generalizing k with
  | nil => cases k <;> rfl
  | cons c cs ih =>
    cases k with
    | zero => rfl
    | succ k => simp [List.take, isPref, ih]

theorem isPref_length {a b : Line} (h : isPref a b = true) :
    a.length ≤ b.length := by
  induction a generalizing b with
  | nil => simp
  | cons x xs ih =>
    cases b with
    | nil => simp [isPref] at h
    | cons y ys =>
      simp only [isPref, Bool.and_eq_true] at h
      simpa using ih h.2

theorem isPref_eq_of_length {a b : Line} (h : isPref a b = true)
    (hl : b.length ≤ a.length) : a = b := by
  induction a generalizing b with
  | nil =>
    cases b with
    | nil => rfl
    | cons y ys => simp at hl
  | cons x xs ih =>
    cases b with
    | nil => simp [isPref] at h
    | cons y ys =>
      simp only [isPref, Bool.and_eq_true, decide_eq_true_eq] at h
      simp only [List.length_cons, Nat.add_le_add_iff_right] at hl
      rw [h.1, ih h.2 hl]

theorem take_ne_nil {n : Line} {k : Nat} (hk : 1 ≤ k) (hn : n ≠ []) :
    n.take k ≠ [] := by
  cases n with
  | nil => exact absurd rfl hn
  | cons c cs =>
    cases k with
    | zero => omega
    | succ k => simp

/-! ## The inner prefix search -/

theorem firstFreeLens_none {n : Line} {u : List Line} {ks : List Nat}
    (h : firstFreeLens n u ks = none) : ∀ k ∈ ks, n.take k ∈ u := by
  induction ks with
  | nil => simp
  | cons k ks ih =>
    intro j hj
    simp only [firstFreeLens] at h
    split at h
    · rcases hj with _ | hj
      · assumption
      · exact ih h j (by assumption)
    · exact absurd h (by simp)

theorem firstFree_none {n : Line} {u : List Line}
    (h : firstFree n u = none) (hn : n ≠ []) : n ∈ u := by
  have h1 := firstFreeLens_none h n.length
  rw [List.take_length] at h1
  apply h1
  have : 1 ≤ n.length := by
    cases n with
    | nil => exact absurd rfl hn
    | cons c cs => simp
  have := List.mem_range'_1.mpr (by omega : 1 ≤ n.length ∧ n.length < 1 + n.length)
  exact this

theorem firstFreeLens_range'_some {n : Line} {u : List Line} :
    ∀ {len s : Nat} {c : Line}, firstFreeLens n u (List.range' s len) = some c →
      c ∉ u ∧ ∃ k, s ≤ k ∧ k < s + len ∧ c = n.take k ∧
        ∀ j, s ≤ j → j < k → n.take j ∈ u := by
  intro len
  induction len with
  | zero => intro s c h; simp [List.range', firstFreeLens] at h
  | succ len ih =>
    intro s c h
    rw [List.range'_succ] at h
    simp only [firstFreeLens] at h
    split at h
    · rename_i hmem
      obtain ⟨hnu, k, hk1, hk2, hc, hall⟩ := ih h
      refine ⟨hnu, k, by omega, by omega, hc, ?_⟩
      intro j hj1 hj2
      rcases Nat.eq_or_lt_of_le hj1 with rfl | hj1'
      · exact hmem
      · exact hall j (by omega) hj2
    · rename_i hmem
      simp only [Option.some.injEq] at h
      subst h
      exact ⟨hmem, s, le_refl s, by omega, rfl, fun j hj1 hj2 => by omega⟩

theorem firstFree_some {n : Line} {u : List Line} {c : Line}
    (h : firstFree n u = some c) :
    c ∉ u ∧ ∃ k, 1 ≤ k ∧ k ≤ n.length ∧ c = n.take k ∧
      (1 < k → n.take (k - 1) ∈ u) := by
  obtain ⟨hnu, k, hk1, hk2, hc, hall⟩ := firstFreeLens_range'_some h
  exact ⟨hnu, k, hk1, by omega, hc, fun h1k => hall (k - 1) (by omega) (by omega)⟩

/-! ## The allocator's fold -/

theorem setA_append {m : List (Line × Line)} {n v : Line}
    (h : n ∉ keysA m) : setA m n v = m ++ [(n, v)] := by
  induction m with
  | nil => rfl
  | cons p rest ih =>
    obtain ⟨k0, v0⟩ := p
    have h1 : ¬k0 = n := by
      intro hh
      exact h (by simp [keysA, hh])
    have h2 : n ∉ keysA rest := by
      intro hh
      apply h
      simp only [keysA, List.map_cons, List.mem_cons]
      exact Or.inr hh
    simp only [setA, if_neg h1, List.cons_append]
    rw [ih h2]

theorem assoc_functional {m : List (Line × Line)} {p q : Line × Line}
    (hnd : (keysA m).Nodup) (hp : p ∈ m) (hq : q ∈ m) (hk : p.1 = q.1) :
    p = q := by
  simp only [keysA] at hnd
  exact List.inj_on_of_nodup_map hnd hp hq hk

theorem keyLe_nil (x : Line) : keyLe [] x := by
  unfold keyLe keyLeB
  cases x <;> simp [lexLeB]

theorem isEmpty_false_of_ne {n : Line} (h : n ≠ []) : n.isEmpty = false := by
  cases n with
  | nil => exact absurd rfl h
  | cons c cs => rfl

/-- The allocator's fold, processed against its invariants.  The names still
to process are pairwise ordered and distinct from the processed keys; the
used set equals the assigned values; every assigned value is a prefix of its
key and nonempty for a nonempty key; a value of length above one has its
one-shorter prefix already used; values are pairwise distinct.  The fallback
flag records exactly whether an empty name was processed. -/
theorem genGo_master :
    ∀ (rest : List Line) (m : List (Line × Line)) (u : List Line) (fb : Bool),
    (∀ x ∈ rest, ∀ k ∈ keysA m, keyLe k x) →
    (keysA m ++ rest).Nodup →
    rest.Pairwise keyLe →
    u = m.map (·.2) →
    (∀ p ∈ m, isPref p.2 p.1 = true) →
    (∀ p ∈ m, p.1 ≠ [] → p.2 ≠ []) →
    (∀ p ∈ m, 1 < p.2.length → p.2.take (p.2.length - 1) ∈ u) →
    (m.map (·.2)).Nodup →
    keysA (genGo rest m u fb).1 = keysA m ++ rest ∧
    (genGo rest m u fb).2.1 = (genGo rest m u fb).1.map (·.2) ∧
    (genGo rest m u fb).2.2 = (fb || rest.any (fun x => x.isEmpty)) ∧
    (∀ p ∈ (genGo rest m u fb).1, isPref p.2 p.1 = true) ∧
    (∀ p ∈ (genGo rest m u fb).1, p.1 ≠ [] → p.2 ≠ []) ∧
    (∀ p ∈ (genGo rest m u fb).1, 1 < p.2.length →
      p.2.take (p.2.length - 1) ∈ (genGo rest m u fb).1.map (·.2)) ∧
    ((genGo rest m u fb).1.map (·.2)).Nodup := by
  intro rest
  induction rest with
  | nil =>
    intro m u fb _ _ _ hu hpref hne hmin hvnd
    subst hu
    exact ⟨by simp [genGo], rfl, by simp [genGo], hpref, hne, hmin, hvnd⟩
  | cons n rest ih =>
    intro m u fb hord hnd hpw hu hpref hne hmin hvnd
    have hnotk : n ∉ keysA m := by
      rw [List.nodup_append] at hnd
      exact fun hmem => hnd.2.2 hmem (by simp)
    have hkeysle : ∀ x ∈ rest, keyLe n x := (List.pairwise_cons.mp hpw).1
    have hpw' : rest.Pairwise keyLe := (List.pairwise_cons.mp hpw).2
    have hndkeys : ∀ c : Line,
        (keysA (m ++ [(n, c)]) ++ rest).Nodup := by
      intro c
      have : keysA (m ++ [(n, c)]) ++ rest = keysA m ++ n :: rest := by
        simp [keysA]
      rw [this]
      exact hnd
    have hordnew : ∀ c : Line, ∀ x ∈ rest, ∀ k ∈ keysA (m ++ [(n, c)]),
        keyLe k x := by
      intro c x hx k hk
      simp only [keysA, List.map_append, List.mem_append, List.map_cons,
        List.mem_singleton] at hk
      rcases hk with hk | hk
      · exact hord x (by simp [hx]) k hk
      · simp only [List.map_nil, List.mem_cons, List.not_mem_nil,
          or_false] at hk
        subst hk
        exact hkeysle x hx
    cases hf : firstFree n u with
    | some c =>
      obtain ⟨hcnu, k, hk1, hk2, hck, hminp⟩ := firstFree_some hf
      have hnne : n ≠ [] := by
        intro hnil
        rw [hnil] at hk2
        simp at hk2
        omega
      have hcne : c ≠ [] := by
        rw [hck]
        exact take_ne_nil hk1 hnne
      have hclen : c.length = k := by
        rw [hck, List.length_take]
        omega
      have hsetA : setA m n c = m ++ [(n, c)] := setA_append hnotk
      have hunew : u ++ [c] = (m ++ [(n, c)]).map (·.2) := by
        rw [hu]
        simp
      have hprefnew : ∀ p ∈ m ++ [(n, c)], isPref p.2 p.1 = true := by
        intro p hp
        rcases List.mem_append.mp hp with hp | hp
        · exact hpref p hp
        · simp only [List.mem_singleton] at hp
          subst hp
          rw [hck]
          exact isPref_take n k
      have hnenew : ∀ p ∈ m ++ [(n, c)], p.1 ≠ [] → p.2 ≠ [] := by
        intro p hp
        rcases List.mem_append.mp hp with hp | hp
        · exact hne p hp
        · simp only [List.mem_singleton] at hp
          subst hp
          exact fun _ => hcne
      have hminnew : ∀ p ∈ m ++ [(n, c)], 1 < p.2.length →
          p.2.take (p.2.length - 1) ∈ u ++ [c] := by
        intro p hp hlen
        rcases List.mem_append.mp hp with hp | hp
        · exact List.mem_append_left _ (hmin p hp hlen)
        · simp only [List.mem_singleton] at hp
          subst hp
          simp only [hclen] at hlen ⊢
          have h1 : c.take (k - 1) = n.take (k - 1) := by
            rw [hck, List.take_take]
            congr 1
            omega
          rw [h1]
          exact List.mem_append_left _ (hminp hlen)
      have hvndnew : ((m ++ [(n, c)]).map (·.2)).Nodup := by
        rw [List.map_append]
        rw [List.nodup_append]
        refine ⟨hvnd, by simp, ?_⟩
        intro x hx hx2
        simp only [List.map_cons, List.map_nil, List.mem_singleton] at hx2
        subst hx2
        rw [hu] at hcnu
        exact hcnu hx
      obtain ⟨g1, g2, g3, g4, g5, g6, g7⟩ :=
        ih (m ++ [(n, c)]) (u ++ [c]) fb (hordnew c) (hndkeys c) hpw'
          hunew hprefnew hnenew hminnew hvndnew
      simp only [genGo, hf, hsetA]
      refine ⟨?_, g2, ?_, g4, g5, g6, g7⟩
      · rw [g1]
        simp [keysA]
      · rw [g3]
        simp [isEmpty_false_of_ne hnne]
    | none =>
      have hn_nil : n = [] := by
        by_contra hnne
        have hmem := firstFree_none hf hnne
        rw [hu] at hmem
        obtain ⟨p, hp, hpv⟩ := List.mem_map.mp hmem
        have h1 : isPref n p.1 = true := by
          rw [← hpv]
          exact hpref p hp
        have h2 : keyLe p.1 n :=
          hord n (by simp) p.1 (List.mem_map_of_mem _ hp)
        have h5 : n = p.1 := isPref_eq_of_length h1 (keyLe_length h2)
        exact hnotk (h5 ▸ List.mem_map_of_mem _ hp)
      subst hn_nil
      have hsetA : setA m [] [] = m ++ [(([] : Line), ([] : Line))] := setA_append hnotk
      have hnilnotin : ([] : Line) ∉ u := by
        rw [hu]
        intro hmem
        obtain ⟨p, hp, hpv⟩ := List.mem_map.mp hmem
        by_cases hp1 : p.1 = []
        · exact hnotk (hp1 ▸ List.mem_map_of_mem _ hp)
        · exact hne p hp hp1 hpv
      have hunew : u ++ [[]] = (m ++ [(([] : Line), ([] : Line))]).map (·.2) := by
        rw [hu]
        simp
      have hprefnew : ∀ p ∈ m ++ [(([] : Line), ([] : Line))], isPref p.2 p.1 = true := by
        intro p hp
        rcases List.mem_append.mp hp with hp | hp
        · exact hpref p hp
        · simp only [List.mem_singleton] at hp
          subst hp
          rfl
      have hnenew : ∀ p ∈ m ++ [(([] : Line), ([] : Line))], p.1 ≠ [] → p.2 ≠ [] := by
        intro p hp
        rcases List.mem_append.mp hp with hp | hp
        · exact hne p hp
        · simp only [List.mem_singleton] at hp
          subst hp
          exact fun h => absurd rfl h
      have hminnew : ∀ p ∈ m ++ [(([] : Line), ([] : Line))], 1 < p.2.length →
          p.2.take (p.2.length - 1) ∈ u ++ [[]] := by
        intro p hp hlen
        rcases List.mem_append.mp hp with hp | hp
        · exact List.mem_append_left _ (hmin p hp hlen)
        · simp only [List.mem_singleton] at hp
          subst hp
          simp at hlen
      have hvndnew : ((m ++ [(([] : Line), ([] : Line))]).map (·.2)).Nodup := by
        rw [List.map_append, List.nodup_append]
        refine ⟨hvnd, by simp, ?_⟩
        intro x hx hx2
        simp only [List.map_cons, List.map_nil, List.mem_singleton] at hx2
        subst hx2
        rw [hu] at hnilnotin
        exact hnilnotin hx
      obtain ⟨g1, g2, g3, g4, g5, g6, g7⟩ :=
        ih (m ++ [(([] : Line), ([] : Line))]) (u ++ [[]]) true (hordnew []) (hndkeys []) hpw'
          hunew hprefnew hnenew hminnew hvndnew
      simp only [genGo, hf, hsetA]
      refine ⟨?_, g2, ?_, g4, g5, g6, g7⟩
      · rw [g1]
        simp [keysA]
      · rw [g3]
        simp

/-- The allocator's guarantees, packaged for the claims below. -/
theorem generate_spec (names : List Line) (hnd : names.Nodup) :
    keysA (generate_short_names names) = sortNames names ∧
    (∀ p ∈ generate_short_names names, isPref p.2 p.1 = true) ∧
    (∀ p ∈ generate_short_names names, p.1 ≠ [] → p.2 ≠ []) ∧
    (∀ p ∈ generate_short_names names, 1 < p.2.length →
      p.2.take (p.2.length - 1) ∈ (generate_short_names names).map (·.2)) ∧
    ((generate_short_names names).map (·.2)).Nodup ∧
    genFallbackFlag names = (sortNames names).any (fun x => x.isEmpty) := by
  have hperm := sortNames_perm names
  have hnd' : (sortNames names).Nodup := hperm.nodup_iff.mpr hnd
  obtain ⟨g1, _, g3, g4, g5, g6, g7⟩ :=
    genGo_master (sortNames names) [] [] false
      (by intro x _ k hk; simp [keysA] at hk)
      (by simpa using hnd')
      (sortNames_pairwise names)
      rfl (by simp) (by simp) (by simp) (by simp)
  exact ⟨by simpa using g1, g4, g5, g6, g7, by simpa using g3⟩

/-- C9: under distinct nonempty procedure names the defensive fallback
branch of the allocator never runs: the prefix loop always finds an
unclaimed prefix. -/
theorem C9_fallback_unreachable (names : List Line) (hnd : names.Nodup)
    (hne : ∀ n ∈ names, n ≠ []) : genFallbackFlag names = false := by
  obtain ⟨-, -, -, -, -, hfb⟩ := generate_spec names hnd
  rw [hfb]
  rw [List.any_eq_false]
  intro x hx
  have hxn : x ∈ names := (sortNames_perm names).mem_iff.mp hx
  simp [isEmpty_false_of_ne (hne x hxn)]

/-- C9 for a concrete pair of names. -/
theorem C9_fallback_unreachable_witness :
    genFallbackFlag [s2l "ALPHA", s2l "BETA"] = false :=
  C9_fallback_unreachable _ (by decide) (by decide)

/-- C5: on pairwise-distinct procedure names, every name is assigned a
nonempty prefix of itself (so the short name is never longer than the
original), every input name receives an assignment, and the mapping is
injective. -/
theorem C5_prefix_injective (names : List Line) (hnd : names.Nodup)
    (hnames : ∀ n ∈ names, n ≠ []) :
    (∀ n ∈ names, n ∈ keysA (generate_short_names names)) ∧
    (∀ p ∈ generate_short_names names, p.2 ≠ [] ∧ isPref p.2 p.1 = true ∧
      p.2.length ≤ p.1.length) ∧
    (∀ p ∈ generate_short_names names, ∀ q ∈ generate_short_names names,
      p.1 ≠ q.1 → p.2 ≠ q.2) := by
  obtain ⟨hkeys, hpref, hne, _, hvnd, _⟩ := generate_spec names hnd
  refine ⟨?_, ?_, ?_⟩
  · intro n hn
    rw [hkeys]
    exact (sortNames_perm names).mem_iff.mpr hn
  · intro p hp
    have hkey : p.1 ∈ names := by
      have h1 : p.1 ∈ keysA (generate_short_names names) := by
        simp only [keysA]
        exact List.mem_map_of_mem _ hp
      rw [hkeys] at h1
      exact (sortNames_perm names).mem_iff.mp h1
    exact ⟨hne p hp (hnames p.1 hkey), hpref p hp, isPref_length (hpref p hp)⟩
  · intro p hp q hq hne12 heq
    exact hne12 (congrArg (·.1) (List.inj_on_of_nodup_map hvnd hp hq heq))

/-- C5 for a concrete pair of names. -/
theorem C5_prefix_injective_witness :
    (∀ n ∈ [s2l "APRICOT", s2l "APPLE"],
      n ∈ keysA (generate_short_names [s2l "APRICOT", s2l "APPLE"])) ∧
    (∀ p ∈ generate_short_names [s2l "APRICOT", s2l "APPLE"],
      p.2 ≠ [] ∧ isPref p.2 p.1 = true ∧ p.2.length ≤ p.1.length) ∧
    (∀ p ∈ generate_short_names [s2l "APRICOT", s2l "APPLE"],
      ∀ q ∈ generate_short_names [s2l "APRICOT", s2l "APPLE"],
        p.1 ≠ q.1 → p.2 ≠ q.2) :=
  C5_prefix_injective _ (by decide) (by decide)

/-- C3: on pairwise-distinct names, every assigned short name of length
above one has its one-character-shorter prefix assigned to another name of
the same mapping, so no assigned short name could be shortened without a
collision. -/
theorem C3_minimality (names : List Line) (hnd : names.Nodup) :
    ∀ p ∈ generate_short_names names, 1 < p.2.length →
      ∃ q ∈ generate_short_names names, q.1 ≠ p.1 ∧
        q.2 = p.2.take (p.2.length - 1) := by
  obtain ⟨hkeys, _, _, hmin, _, _⟩ := generate_spec names hnd
  have hknd : (keysA (generate_short_names names)).Nodup := by
    rw [hkeys]
    exact (sortNames_perm names).nodup_iff.mpr hnd
  intro p hp hlen
  obtain ⟨q, hq, hqv⟩ := List.mem_map.mp (hmin p hp hlen)
  refine ⟨q, hq, ?_, hqv⟩
  intro hqp
  have hpq : q = p := assoc_functional hknd hq hp hqp
  rw [hpq] at hqv
  have : p.2.length = p.2.length - 1 := by
    conv_lhs => rw [hqv]
    rw [List.length_take]
    omega
  omega

/-- C3 at the spec's own example pair (`APPLE → A`, `APRICOT → AP`). -/
theorem C3_minimality_witness :
    ∃ q ∈ generate_short_names [s2l "APRICOT", s2l "APPLE"],
      q.1 ≠ s2l "APRICOT" ∧ q.2 = s2l "A" := by
  obtain ⟨q, hq, h1, h2⟩ := C3_minimality [s2l "APRICOT", s2l "APPLE"]
    (by decide) (s2l "APRICOT", s2l "AP") (by decide) (by decide)
  refine ⟨q, hq, h1, ?_⟩
  rw [h2]
  decide

/-! ## The literal-name tail pattern -/

theorem ciEqL_all_alnum {a b : Line} (hci : ciEqL a b = true)
    (ha : a.all isAlnumCh = true) : b.all isAlnumCh = true := by
  induction a generalizing b with
  | nil => cases b <;> simp_all [ciEqL]
  | cons c cs ih =>
    cases b with
    | nil => simp [ciEqL] at hci
    | cons d ds =>
      simp only [ciEqL, Bool.and_eq_true] at hci
      simp only [List.all_cons, Bool.and_eq_true] at ha ⊢
      exact ⟨by rw [← ciEqCh_alnum hci.1]; exact ha.1, ih hci.2 ha.2⟩

theorem ciEqL_validTok {n nm : Line} (hv : validTok n = true)
    (hci : ciEqL n nm = true) : validTok nm = true := by
  obtain ⟨hne, hhd, hall⟩ := validTok_elim hv
  cases n with
  | nil => exact absurd rfl hne
  | cons c cs =>
    cases nm with
    | nil => simp [ciEqL] at hci
    | cons d ds =>
      simp only [ciEqL, Bool.and_eq_true] at hci
      apply validTok_of (by simp) ?hd (ciEqL_all_alnum
        (show ciEqL (c :: cs) (d :: ds) = true by
          simp [ciEqL, hci.1, hci.2]) hall)
      case hd =>
        simp only [List.headD_cons] at hhd ⊢
        rw [← ciEqCh_alpha hci.1]
        exact hhd

theorem litHere_some {n r w t : Line} (h : litHere n r = some (w, t)) :
    w = [] ∧ ∃ nm, r = nm ++ t ∧ ciEqL n nm = true ∧ allWs t = true := by
  unfold litHere at h
  split at h
  · exact absurd h (by simp)
  · rename_i rest hcd
    split at h
    · rename_i hws
      simp only [Option.some.injEq, Prod.mk.injEq] at h
      obtain ⟨m, hm, hci⟩ := ciDrop_some hcd
      refine ⟨h.1.symm, m, ?_, hci, ?_⟩
      · rw [← h.2]
        exact hm
      · exact dropWhile_nil_iff_all.mp (List.isEmpty_iff.mp (h.2 ▸ hws))
    · exact absurd h (by simp)

theorem wsStarLit_some {n : Line} :
    ∀ {r w t : Line}, wsStarLit n r = some (w, t) →
      ∃ nm, r = w ++ nm ++ t ∧ allWs w = true ∧ ciEqL n nm = true ∧
        allWs t = true := by
  intro r
  induction r with
  | nil =>
    intro w t h
    simp only [wsStarLit] at h
    obtain ⟨hw, nm, hr, hci, ht⟩ := litHere_some h
    exact ⟨nm, by rw [hw]; simpa using hr, by rw [hw]; rfl, hci, ht⟩
  | cons c cs ih =>
    intro w t h
    simp only [wsStarLit] at h
    by_cases hc : isSpaceCh c = true
    · rw [if_pos hc] at h
      cases hrec : wsStarLit n cs with
      | some p =>
        obtain ⟨w', t'⟩ := p
        rw [hrec] at h
        simp only [Option.some.injEq, Prod.mk.injEq] at h
        obtain ⟨nm, hr, hw', hci, ht⟩ := ih hrec
        refine ⟨nm, ?_, ?_, hci, by rw [← h.2]; exact ht⟩
        · rw [← h.1, ← h.2, hr]
          simp
        · rw [← h.1]
          simp only [allWs, List.all_cons, hc, Bool.true_and]
          exact hw'
      | none =>
        rw [hrec] at h
        obtain ⟨hw, nm, hr, hci, ht⟩ := litHere_some h
        exact ⟨nm, by rw [hw]; simpa using hr, by rw [hw]; rfl, hci, ht⟩
    · rw [if_neg hc] at h
      obtain ⟨hw, nm, hr, hci, ht⟩ := litHere_some h
      exact ⟨nm, by rw [hw]; simpa using hr, by rw [hw]; rfl, hci, ht⟩

theorem wsPlusLit_some {n r w t : Line} (h : wsPlusLit n r = some (w, t)) :
    ∃ nm, r = w ++ nm ++ t ∧ w ≠ [] ∧ allWs w = true ∧ ciEqL n nm = true ∧
      allWs t = true := by
  cases r with
  | nil => simp [wsPlusLit] at h
  | cons c cs =>
    simp only [wsPlusLit] at h
    by_cases hc : isSpaceCh c = true
    · rw [if_pos hc] at h
      cases hrec : wsStarLit n cs with
      | some p =>
        obtain ⟨w', t'⟩ := p
        rw [hrec] at h
        simp only [Option.some.injEq, Prod.mk.injEq] at h
        obtain ⟨nm, hr, hw', hci, ht⟩ := wsStarLit_some hrec
        refine ⟨nm, ?_, by rw [← h.1]; simp, ?_, hci, by rw [← h.2]; exact ht⟩
        · rw [← h.1, ← h.2, hr]
          simp
        · rw [← h.1]
          simp only [allWs, List.all_cons, hc, Bool.true_and]
          exact hw'
      | none =>
        rw [hrec] at h
        exact absurd h (by simp)
    · rw [if_neg hc] at h
      exact absurd h (by simp)

theorem litHere_eval {n nm t : Line} (hci : ciEqL n nm = true)
    (ht : allWs t = true) : litHere n (nm ++ t) = some ([], t) := by
  simp only [litHere, ciDrop_append hci]
  rw [if_pos (by simp [dropWhile_eq_nil_all ht])]

theorem wsStarLit_eval {n nm t : Line} (hci : ciEqL n nm = true)
    (hnm : validTok nm = true) (ht : allWs t = true) :
    ∀ {w : Line}, allWs w = true → wsStarLit n (w ++ (nm ++ t)) = some (w, t) := by
  intro w
  induction w with
  | nil =>
    intro _
    obtain ⟨hne, hhd, _⟩ := validTok_elim hnm
    obtain ⟨c, cs, rfl⟩ : ∃ c cs, nm = c :: cs := by
      cases nm with
      | nil => exact absurd rfl hne
      | cons c cs => exact ⟨c, cs, rfl⟩
    simp only [List.headD_cons] at hhd
    rw [List.nil_append, List.cons_append]
    simp only [wsStarLit]
    rw [if_neg (by simp [alnum_not_space (alpha_alnum hhd)])]
    rw [← List.cons_append]
    exact litHere_eval hci ht
  | cons c cs ih =>
    intro hw
    simp only [allWs, List.all_cons, Bool.and_eq_true] at hw
    rw [List.cons_append]
    simp only [wsStarLit]
    rw [if_pos hw.1, ih hw.2]

theorem wsPlusLit_eval {n nm w t : Line} (hw : w ≠ []) (hwall : allWs w = true)
    (hci : ciEqL n nm = true) (hnm : validTok nm = true) (ht : allWs t = true) :
    wsPlusLit n (w ++ (nm ++ t)) = some (w, t) := by
  cases w with
  | nil => exact absurd rfl hw
  | cons c cs =>
    simp only [allWs, List.all_cons, Bool.and_eq_true] at hwall
    rw [List.cons_append]
    simp only [wsPlusLit]
    rw [if_pos hwall.1, wsStarLit_eval hci hnm ht hwall.2]

/-! ## The call pattern -/

theorem getLastD_irrel {l : Line} (h : l ≠ []) (a b : Nat) :
    l.getLastD a = l.getLastD b := by
  rw [List.getLastD_eq_getLast?, List.getLastD_eq_getLast?]
  cases hg : l.getLast? with
  | none => exact absurd (List.getLast?_eq_none_iff.mp hg) h
  | some c => rfl

theorem getLastD_cons_ne {c : Nat} {l : Line} (h : l ≠ []) :
    (c :: l).getLastD 0 = l.getLastD 0 := by
  rw [List.getLastD_cons]
  exact getLastD_irrel h c 0

theorem ciEqL_ne_nil {n nm : Line} (hci : ciEqL n nm = true) (h : n ≠ []) :
    nm ≠ [] := by
  intro hh
  subst hh
  cases n with
  | nil => exact h rfl
  | cons c cs => simp [ciEqL] at hci

theorem ciDropLast_some {n : Line} : ∀ {l : Line} {lc : Option Nat} {rest : Line},
    ciDropLast n l = some (lc, rest) →
    ∃ nm, l = nm ++ rest ∧ ciEqL n nm = true ∧
      ((n = [] ∧ lc = none) ∨ (n ≠ [] ∧ nm ≠ [] ∧ lc = some (nm.getLastD 0))) := by
  induction n with
  | nil =>
    intro l lc rest h
    simp only [ciDropLast, Option.some.injEq, Prod.mk.injEq] at h
    exact ⟨[], by simp [h.2], rfl, Or.inl ⟨rfl, h.1.symm⟩⟩
  | cons p ps ih =>
    intro l lc rest h
    cases l with
    | nil => simp [ciDropLast] at h
    | cons c cs =>
      simp only [ciDropLast] at h
      split at h
      · rename_i hpc
        split at h
        · rename_i hrec
          obtain ⟨nm, hcs, hci, hcase⟩ := ih hrec
          rcases hcase with ⟨hps, _⟩ | ⟨_, _, hlc⟩
          · subst hps
            have hnm : nm = [] := by
              cases nm with
              | nil => rfl
              | cons a as => simp [ciEqL] at hci
            subst hnm
            simp only [Option.some.injEq, Prod.mk.injEq] at h
            refine ⟨[c], by simp [hcs, ← h.2], by simp [ciEqL, hpc], ?_⟩
            exact Or.inr ⟨by simp, by simp, by simp [← h.1]⟩
          · exact absurd hlc.symm (by simp)
        · rename_i d r hrec
          obtain ⟨nm, hcs, hci, hcase⟩ := ih hrec
          rcases hcase with ⟨_, hlc⟩ | ⟨_, hnm, hlc⟩
          · exact absurd hlc (by simp)
          · simp only [Option.some.injEq, Prod.mk.injEq] at h
            refine ⟨c :: nm, by simp [hcs, ← h.2], by simp [ciEqL, hpc, hci], ?_⟩
            refine Or.inr ⟨by simp, by simp, ?_⟩
            rw [← h.1, getLastD_cons_ne hnm]
            simp only [Option.some.injEq] at hlc
            rw [← hlc]
        · exact absurd h (by simp)
      · exact absurd h (by simp)

theorem ciDropLast_append {n : Line} : ∀ {nm rest : Line},
    ciEqL n nm = true → n ≠ [] →
    ciDropLast n (nm ++ rest) = some (some (nm.getLastD 0), rest) := by
  induction n with
  | nil => intro nm rest _ h; exact absurd rfl h
  | cons p ps ih =>
    intro nm rest hci _
    cases nm with
    | nil => simp [ciEqL] at hci
    | cons c cs =>
      simp only [ciEqL, Bool.and_eq_true] at hci
      simp only [List.cons_append, ciDropLast]
      rw [if_pos hci.1]
      cases hps : ps with
      | nil =>
        have hcs : cs = [] := by
          cases cs with
          | nil => rfl
          | cons a as => rw [hps] at hci; simp [ciEqL] at hci
        subst hcs
        simp [ciDropLast]
      | cons q qs =>
        have hcs : cs ≠ [] := by
          intro hh
          rw [hps, hh] at hci
          simp [ciEqL] at hci
        rw [← hps]
        simp only [List.append_eq]
        rw [ih (hps ▸ hci.2 : ciEqL ps cs = true) (by simp [hps])]
        rw [getLastD_cons_ne hcs]

theorem ciEqL_head_word {n nm : Line} (hci : ciEqL n nm = true) (h : n ≠ []) :
    isWordCh (nm.headD 0) = isWordCh (n.headD 0) := by
  cases n with
  | nil => exact absurd rfl h
  | cons c cs =>
    cases nm with
    | nil => simp [ciEqL] at hci
    | cons d ds =>
      simp only [ciEqL, Bool.and_eq_true] at hci
      simp only [List.headD_cons]
      exact (ciEqCh_word hci.1).symm

theorem ciEqL_last_word {n : Line} : ∀ {nm : Line}, ciEqL n nm = true → n ≠ [] →
    isWordCh (nm.getLastD 0) = isWordCh (n.getLastD 0) := by
  induction n with
  | nil => intro nm _ h; exact absurd rfl h
  | cons c cs ih =>
    intro nm hci _
    cases nm with
    | nil => simp [ciEqL] at hci
    | cons d ds =>
      simp only [ciEqL, Bool.and_eq_true] at hci
      cases hcs : cs with
      | nil =>
        have hds : ds = [] := by
          cases ds with
          | nil => rfl
          | cons e es => rw [hcs] at hci; simp [ciEqL] at hci
        subst hds
        subst hcs
        simp only [List.getLastD_cons]
        exact (ciEqCh_word hci.1).symm
      | cons q qs =>
        have hds : ds ≠ [] := by
          intro hh; rw [hcs, hh] at hci; simp [ciEqL] at hci
        rw [getLastD_cons_ne hds, getLastD_cons_ne (by simp : q :: qs ≠ [])]
        rw [← hcs]
        exact ih hci.2 (by simp [hcs])

theorem getLastD_mem {l : Line} : l ≠ [] → l.getLastD 0 ∈ l := by
  induction l with
  | nil => intro h; exact absurd rfl h
  | cons c cs ih =>
    intro _
    cases cs with
    | nil => simp [List.getLastD]
    | cons q qs =>
      rw [getLastD_cons_ne (by simp)]
      exact List.mem_cons_of_mem _ (ih (by simp))

theorem validTok_head_word {n : Line} (h : validTok n = true) :
    isWordCh (n.headD 0) = true := by
  obtain ⟨_, hhd, _⟩ := validTok_elim h
  exact alnum_word (alpha_alnum hhd)

theorem validTok_last_word {n : Line} (h : validTok n = true) :
    isWordCh (n.getLastD 0) = true := by
  obtain ⟨hne, _, hall⟩ := validTok_elim h
  exact alnum_word (List.all_eq_true.mp hall _ (getLastD_mem hne))

theorem space_lookClass {c : Nat} (h : isSpaceCh c = true) : lookClass c = true := by
  unfold lookClass
  rw [h]
  simp

theorem lookClass_not_word {c : Nat} (h : lookClass c = true) : isWordCh c = false := by
  unfold lookClass at h
  simp only [Bool.or_eq_true, decide_eq_true_eq] at h
  rcases h with (h | h) | h
  · subst h; decide
  · subst h; decide
  · exact space_not_word h

theorem wsThenClass_head {c : Nat} {r : Line} :
    wsThenClass (c :: r) = lookClass c := by
  unfold wsThenClass
  cases hl : lookClass c with
  | true => simp
  | false =>
    have hs : isSpaceCh c = false := by
      cases hs : isSpaceCh c with
      | false => rfl
      | true => rw [space_lookClass hs] at hl; exact absurd hl (by simp)
    simp [hs]

theorem lookaheadOk_iff {l : Line} :
    lookaheadOk l = true ↔ l = [] ∨ lookClass (l.headD 0) = true := by
  cases l with
  | nil => simp [lookaheadOk]
  | cons c cs =>
    simp only [lookaheadOk, List.isEmpty_cons, Bool.false_or, wsThenClass_head,
      List.headD_cons]
    simp

theorem headWord_eq_headD {l : Line} (h : l ≠ []) :
    headWord l = isWordCh (l.headD 0) := by
  cases l with
  | nil => exact absurd rfl h
  | cons c cs => rfl

theorem callHitAt_iff {n : Line} (hv : validTok n = true) {pw : Bool} {l : Line} :
    callHitAt n pw l = true ↔
      ∃ nm post, l = nm ++ post ∧ ciEqL n nm = true ∧ pw = false ∧
        (post = [] ∨ lookClass (post.headD 0) = true) := by
  have hne : n ≠ [] := (validTok_elim hv).1
  constructor
  · intro h
    unfold callHitAt at h
    rw [Bool.and_eq_true] at h
    obtain ⟨hw, hla⟩ := h
    split at hla
    · exact absurd hla (by simp)
    · rename_i lastC rest hd
      obtain ⟨nm, hl, hci, hcase⟩ := ciDropLast_some hd
      rcases hcase with ⟨hn, _⟩ | ⟨_, hnm, hlast⟩
      · exact absurd hn hne
      · have hhw : headWord l = true := by
          rw [hl, headWord_eq_headD (by simp [hnm]), headD_append_left hnm,
            ciEqL_head_word hci hne, validTok_head_word hv]
        have hpw : pw = false := by
          unfold wordHit at hw
          rw [Bool.and_eq_true] at hw
          have h1 := hw.1
          rw [hhw] at h1
          cases pw with
          | false => rfl
          | true => exact absurd h1 (by decide)
        exact ⟨nm, rest, hl, hci, hpw, lookaheadOk_iff.mp hla⟩
  · rintro ⟨nm, post, rfl, hci, rfl, hpost⟩
    have hnm : nm ≠ [] := ciEqL_ne_nil hci hne
    have hd : ciDropLast n (nm ++ post) = some (some (nm.getLastD 0), post) :=
      ciDropLast_append hci hne
    have hhw : headWord (nm ++ post) = true := by
      rw [headWord_eq_headD (by simp [hnm]), headD_append_left hnm,
        ciEqL_head_word hci hne, validTok_head_word hv]
    have hlw : isWordCh (nm.getLastD 0) = true := by
      rw [ciEqL_last_word hci hne]
      exact validTok_last_word hv
    have hpw : headWord post = false := by
      cases post with
      | nil => rfl
      | cons c cs =>
        rcases hpost with h | h
        · exact absurd h (by simp)
        · simp only [List.headD_cons] at h
          exact lookClass_not_word h
    have hla : lookaheadOk post = true := lookaheadOk_iff.mpr hpost
    unfold callHitAt wordHit
    simp only [hd, hhw, hlw, hpw, hla]
    rfl

theorem searchCallGo_iff {n : Line} (hv : validTok n = true) :
    ∀ {l : Line} {pw : Bool},
      searchCallGo n pw l = true ↔
        ∃ pre nm post, l = pre ++ nm ++ post ∧ ciEqL n nm = true ∧
          ((pre = [] ∧ pw = false) ∨
            (pre ≠ [] ∧ isWordCh (pre.getLastD 0) = false)) ∧
          (post = [] ∨ lookClass (post.headD 0) = true) := by
  have hne : n ≠ [] := (validTok_elim hv).1
  intro l
  induction l with
  | nil =>
    intro pw
    constructor
    · intro h
      simp only [searchCallGo] at h
      obtain ⟨nm, post, hl, hci, _, _⟩ := (callHitAt_iff hv).mp h
      exact absurd (List.append_eq_nil.mp hl.symm).1 (ciEqL_ne_nil hci hne)
    · rintro ⟨pre, nm, post, hl, hci, _, _⟩
      have h2 := List.append_eq_nil.mp hl.symm
      exact absurd (List.append_eq_nil.mp h2.1).2 (ciEqL_ne_nil hci hne)
  | cons c cs ih =>
    intro pw
    simp only [searchCallGo, Bool.or_eq_true]
    constructor
    · rintro (h | h)
      · obtain ⟨nm, post, hl, hci, hpw, hpost⟩ := (callHitAt_iff hv).mp h
        exact ⟨[], nm, post, by simpa using hl, hci, Or.inl ⟨rfl, hpw⟩, hpost⟩
      · obtain ⟨pre, nm, post, hl, hci, hb, hpost⟩ := ih.mp h
        refine ⟨c :: pre, nm, post, by simp [hl], hci, ?_, hpost⟩
        rcases hb with ⟨hpre, hpw⟩ | ⟨hpre, hw⟩
        · subst hpre
          refine Or.inr ⟨by simp, ?_⟩
          simp only [List.getLastD_cons]
          exact hpw
        · exact Or.inr ⟨by simp, by rwa [getLastD_cons_ne hpre]⟩
    · rintro ⟨pre, nm, post, hl, hci, hb, hpost⟩
      cases pre with
      | nil =>
        rcases hb with ⟨_, hpw⟩ | ⟨hpre, _⟩
        · exact Or.inl ((callHitAt_iff hv).mpr
            ⟨nm, post, by simpa using hl, hci, hpw, hpost⟩)
        · exact absurd rfl hpre
      | cons p ps =>
        right
        have hc : c = p ∧ cs = ps ++ nm ++ post := by
          simpa using hl
        apply ih.mpr
        refine ⟨ps, nm, post, hc.2, hci, ?_, hpost⟩
        rcases hb with ⟨hpre, _⟩ | ⟨_, hw⟩
        · exact absurd hpre (by simp)
        · cases ps with
          | nil =>
            refine Or.inl ⟨rfl, ?_⟩
            rw [hc.1]
            simpa using hw
          | cons q qs =>
            refine Or.inr ⟨by simp, ?_⟩
            rwa [getLastD_cons_ne (by simp)] at hw

theorem searchCall_iff {n l : Line} (hv : validTok n = true) :
    searchCall n l = true ↔
      ∃ pre nm post, l = pre ++ nm ++ post ∧ ciEqL n nm = true ∧
        (pre = [] ∨ isWordCh (pre.getLastD 0) = false) ∧
        (post = [] ∨ lookClass (post.headD 0) = true) := by
  unfold searchCall
  rw [searchCallGo_iff hv]
  constructor
  · rintro ⟨pre, nm, post, hl, hci, hb, hpost⟩
    refine ⟨pre, nm, post, hl, hci, ?_, hpost⟩
    rcases hb with ⟨h1, _⟩ | ⟨_, h2⟩
    · exact Or.inl h1
    · exact Or.inr h2
  · rintro ⟨pre, nm, post, hl, hci, hb, hpost⟩
    refine ⟨pre, nm, post, hl, hci, ?_, hpost⟩
    rcases hb with h1 | h2
    · exact Or.inl ⟨h1, rfl⟩
    · cases pre with
      | nil => exact Or.inl ⟨rfl, rfl⟩
      | cons p ps => exact Or.inr ⟨by simp, h2⟩

/-! ## The definition-line exclusion of the Call-Site Scanner -/

theorem upCh_not_lower {c : Nat} (h : isLowerCh c = false) : upCh c = c := by
  simp [upCh, h]

theorem map_upCh_not_lower : ∀ {n : Line}, n.all (fun c => !isLowerCh c) = true →
    n.map upCh = n := by
  intro n
  induction n with
  | nil => intro _; rfl
  | cons c cs ih =>
    intro h
    simp only [List.all_cons, Bool.and_eq_true, Bool.not_eq_true'] at h
    simp only [List.map_cons, ih h.2]
    rw [upCh_not_lower h.1]

theorem upperTok_map_upCh {n : Line} (h : upperTok n = true) : n.map upCh = n := by
  unfold upperTok at h
  rw [Bool.and_eq_true] at h
  exact map_upCh_not_lower h.2

theorem upperTok_validTok {n : Line} (h : upperTok n = true) : validTok n = true := by
  unfold upperTok at h
  rw [Bool.and_eq_true] at h
  exact h.1

/-- The Call-Site Scanner's per-name definition-line test (line 39) accepts a
line exactly when the Definition Scanner's pattern (line 11) parses the line
with that (canonically upper-cased) name as the captured token. -/
theorem defLineFor_iff {l n : Line} (hu : upperTok n = true) :
    defLineFor l n = true ↔ parseDefLine (stripWs l) = some n := by
  have hv : validTok n = true := upperTok_validTok hu
  unfold defLineFor parseDefLine
  rcases hcd : ciDrop kwPROC (parseLabel ((stripWs l).dropWhile isSpaceCh)) with _ | r1
  · simp only [hcd]
    simp
  · simp only [hcd]
    constructor
    · intro h
      rcases hws : wsPlusLit n r1 with _ | ⟨w, t⟩
      · rw [hws] at h
        simp at h
      · obtain ⟨nm, hr1, hwne, hwall, hci, ht⟩ := wsPlusLit_some hws
        rw [hr1, parseAfterKw_eval hwne hwall (ciEqL_validTok hv hci) ht]
        have hn : nm.map upCh = n := by
          rw [← ciEqL_iff_map_upCh.mp hci, upperTok_map_upCh hu]
        rw [hn]
    · intro h
      obtain ⟨w2, tok, w3, hr1, hw2ne, hw2, htok, hw3, hN⟩ := parseAfterKw_some h
      have hci : ciEqL n tok = true := by
        rw [ciEqL_iff_map_upCh, upperTok_map_upCh hu]
        exact hN
      rw [hr1]
      have e : w2 ++ tok ++ w3 = w2 ++ (tok ++ w3) := by simp [List.append_assoc]
      rw [e, wsPlusLit_eval hw2ne hw2 hci htok hw3]
      rfl

/-- Membership in the per-name call-collection loop. -/
theorem mem_collectCallsGo {n : Line} {j : Nat} :
    ∀ {ls : List Line} {i : Nat} {acc : List Nat},
      (j ∈ collectCallsGo n i ls acc ↔
        j ∈ acc ∨ ∃ k, k < ls.length ∧ j = i + k ∧
          callRecorded n (ls.getD k []) = true) := by
  intro ls
  induction ls with
  | nil =>
    intro i acc
    simp [collectCallsGo]
  | cons l ls ih =>
    intro i acc
    simp only [collectCallsGo]
    rw [ih]
    by_cases hr : callRecorded n l = true
    · rw [if_pos hr]
      constructor
      · rintro (hacc | ⟨k, hk, rfl, hrec⟩)
        · rw [List.mem_append] at hacc
          rcases hacc with h | h
          · exact Or.inl h
          · simp only [List.mem_singleton] at h
            subst h
            exact Or.inr ⟨0, by simp, by simp, by simpa using hr⟩
        · refine Or.inr ⟨k + 1, ?_, by omega, by simpa using hrec⟩
          simp only [List.length_cons]
          omega
      · rintro (hacc | ⟨k, hk, hj, hrec⟩)
        · exact Or.inl (by simp [hacc])
        · cases k with
          | zero =>
            subst hj
            exact Or.inl (by simp)
          | succ m =>
            subst hj
            refine Or.inr ⟨m, ?_, by omega, by simpa using hrec⟩
            simp only [List.length_cons] at hk
            omega
    · rw [if_neg hr]
      rw [Bool.not_eq_true] at hr
      constructor
      · rintro (hacc | ⟨k, hk, rfl, hrec⟩)
        · exact Or.inl hacc
        · refine Or.inr ⟨k + 1, ?_, by omega, by simpa using hrec⟩
          simp only [List.length_cons]
          omega
      · rintro (hacc | ⟨k, hk, hj, hrec⟩)
        · exact Or.inl hacc
        · cases k with
          | zero =>
            simp only [List.getD_cons_zero] at hrec
            exact absurd hrec (by simp [hr])
          | succ m =>
            subst hj
            refine Or.inr ⟨m, ?_, by omega, by simpa using hrec⟩
            simp only [List.length_cons] at hk
            omega

/-- Looking up a key of a mapping built per-name over a name list. -/
theorem lookupA_map_self {α : Type} (g : Line → α) :
    ∀ (names : List Line) (k : Line), k ∈ names →
      lookupA (names.map (fun n => (n, g n))) k = some (g k) := by
  intro names
  induction names with
  | nil =>
    intro k hk
    simp at hk
  | cons n ns ih =>
    intro k hk
    simp only [List.map_cons, lookupA]
    by_cases h : n = k
    · subst h
      rw [if_pos rfl]
    · rw [if_neg h]
      apply ih
      rcases List.mem_cons.mp hk with h' | h'
      · exact absurd h'.symm h
      · exact h'

/-- C4, counterexample.  The line `ALPHA$=1` is not blank or a comment and is
recorded as a call of `ALPHA` by the Call-Site Scanner (its index list is
`[0]`), yet `ALPHA` does not occur in it as a whole word followed by a colon,
by whitespace or by end of line: the only case-insensitive occurrence of
`ALPHA` is followed by the character `$` (code 36).  The claim's trailing
context omits `$`, which the class `[:$\s]` of the source's lookahead
matches as a literal character. -/
theorem C4_counterexample :
    lookupA (find_procedure_calls (s2l "ALPHA$=1") [s2l "ALPHA"]) (s2l "ALPHA")
        = some [0] ∧
    commentOrBlank (s2l "ALPHA$=1") = false ∧
    ¬∃ pre nm post, s2l "ALPHA$=1" = pre ++ nm ++ post ∧
        ciEqL (s2l "ALPHA") nm = true ∧
        (pre = [] ∨ isWordCh (pre.getLastD 0) = false) ∧
        (post = [] ∨ isWordCh (post.headD 0) = false) ∧
        (post = [] ∨ post.headD 0 = 58 ∨ isSpaceCh (post.headD 0) = true) := by
  refine ⟨by decide, by decide, ?_⟩
  rintro ⟨pre, nm, post, hl, hci, _, _, hpost⟩
  have hlen : nm.length = 5 := by
    rw [← ciEqL_length hci]
    decide
  have h8 : pre.length + nm.length + post.length = 8 := by
    have hc := congrArg List.length hl
    simp only [List.length_append] at hc
    rw [(by decide : (s2l "ALPHA$=1").length = 8)] at hc
    omega
  have hnm : ((s2l "ALPHA$=1").drop pre.length).take 5 = nm := by
    rw [hl, List.append_assoc, List.drop_left, ← hlen, List.take_left]
  have hpost2 : (s2l "ALPHA$=1").drop (pre.length + 5) = post := by
    rw [hl]
    exact List.drop_left' (by simp [hlen])
  have hk : pre.length = 0 ∨ pre.length = 1 ∨ pre.length = 2 ∨ pre.length = 3 := by
    omega
  rcases hk with h | h | h | h
  · rw [h] at hpost2
    rw [← hpost2] at hpost
    exact absurd hpost (by decide)
  · rw [h] at hnm
    rw [← hnm] at hci
    exact absurd hci (by decide)
  · rw [h] at hnm
    rw [← hnm] at hci
    exact absurd hci (by decide)
  · rw [h] at hnm
    rw [← hnm] at hci
    exact absurd hci (by decide)

/-- C4, amended.  For a well-formed procedure-name token, the Call-Site
Scanner marks a line exactly when the line is not blank or a comment, is not
a full definition line for the name, and the name occurs in it
case-insensitively with a word boundary on the left and followed by a colon,
a dollar sign, whitespace, or end of line — the lookahead's class `[:$\s]`
contains a literal `$`, so `$` is an admissible trailing character in
addition to the colon, whitespace and end-of-line contexts the spec
lists. -/
theorem C4_call_trailing_context (n l : Line) (hv : validTok n = true) :
    callRecorded n l = true ↔
      commentOrBlank l = false ∧ defLineFor l n = false ∧
      ∃ pre nm post, l = pre ++ nm ++ post ∧ ciEqL n nm = true ∧
        (pre = [] ∨ isWordCh (pre.getLastD 0) = false) ∧
        (post = [] ∨ lookClass (post.headD 0) = true) := by
  unfold callRecorded
  rw [Bool.and_eq_true, Bool.and_eq_true, Bool.not_eq_true', Bool.not_eq_true']
  rw [searchCall_iff hv]
  constructor
  · rintro ⟨⟨h1, h2⟩, h3⟩
    exact ⟨h1, h3, h2⟩
  · rintro ⟨h1, h3, h2⟩
    exact ⟨⟨h1, h2⟩, h3⟩

/-- Witness for C4's amended theorem at the call line `GOSUB ALPHA: PRINT 1`
and the name `ALPHA`. -/
theorem C4_call_trailing_context_witness :
    callRecorded (s2l "ALPHA") (s2l "GOSUB ALPHA: PRINT 1") = true ↔
      commentOrBlank (s2l "GOSUB ALPHA: PRINT 1") = false ∧
      defLineFor (s2l "GOSUB ALPHA: PRINT 1") (s2l "ALPHA") = false ∧
      ∃ pre nm post, s2l "GOSUB ALPHA: PRINT 1" = pre ++ nm ++ post ∧
        ciEqL (s2l "ALPHA") nm = true ∧
        (pre = [] ∨ isWordCh (pre.getLastD 0) = false) ∧
        (post = [] ∨ lookClass (post.headD 0) = true) :=
  C4_call_trailing_context (s2l "ALPHA") (s2l "GOSUB ALPHA: PRINT 1") (by decide)

/-- C7.  A line that the Definition Scanner accepts as a definition line of
a (canonically upper-cased) known name is never recorded in that name's
CallIndex entry, whatever other names are known; and the call line
`GOSUB ALPHA: PRINT 1` is recorded for `ALPHA` at index 0, its name being
followed by a colon. -/
theorem C7_definition_lines_excluded :
    (∀ (content n : Line) (names : List Line) (i : Nat),
        upperTok n = true → n ∈ names →
        parseDefLine (stripWs ((splitNl content).getD i [])) = some n →
        ∀ callList,
          lookupA (find_procedure_calls content names) n = some callList →
          i ∉ callList) ∧
    lookupA (find_procedure_calls (s2l "GOSUB ALPHA: PRINT 1") [s2l "ALPHA"])
        (s2l "ALPHA") = some [0] := by
  constructor
  · intro content n names i hu hmem hdef callList hlook hin
    unfold find_procedure_calls at hlook
    rw [lookupA_map_self _ names n hmem] at hlook
    have hc : callList = collectCallsGo n 0 (splitNl content) [] := by
      simpa using hlook.symm
    subst hc
    rw [mem_collectCallsGo] at hin
    rcases hin with h | ⟨k, hk, hj, hrec⟩
    · simp at h
    · have hik : i = k := by omega
      subst hik
      unfold callRecorded at hrec
      rw [Bool.and_eq_true] at hrec
      have hdl : defLineFor ((splitNl content).getD i []) n = true :=
        (defLineFor_iff hu).mpr hdef
      have h2 := hrec.2
      rw [hdl] at h2
      exact absurd h2 (by decide)
  · decide

theorem dropWhile_head_neg {p : Nat → Bool} {y : Line} (h : p (y.headD 0) = false) :
    y.dropWhile p = y := by
  cases y with
  | nil => rfl
  | cons c cs =>
    simp only [List.headD_cons] at h
    exact dropWhile_cons_neg h

theorem relax_parse_core {w0 ds w1 X : Line} (hw0 : allWs w0 = true)
    (hds : allDigit ds = true) (hw1 : allWs w1 = true)
    (hX1 : isSpaceCh (X.headD 0) = false) (hX2 : isDigitCh (X.headD 0) = false) :
    (((w0 ++ (ds ++ (w1 ++ X))).dropWhile isSpaceCh).dropWhile
        isDigitCh).dropWhile isSpaceCh = X := by
  rw [dropWhile_append_all hw0]
  cases ds with
  | nil =>
    rw [List.nil_append, dropWhile_append_all hw1, dropWhile_head_neg hX1,
      dropWhile_head_neg hX2, dropWhile_head_neg hX1]
  | cons d es =>
    simp only [allDigit, List.all_cons, Bool.and_eq_true] at hds
    rw [List.cons_append, dropWhile_cons_neg (digit_not_space hds.1),
      ← List.cons_append]
    have hds' : allDigit (d :: es) = true := by
      simp only [allDigit, List.all_cons, Bool.and_eq_true]
      exact hds
    rw [dropWhile_append_all hds']
    cases w1 with
    | nil =>
      rw [List.nil_append, dropWhile_head_neg hX2, dropWhile_head_neg hX1]
    | cons a as =>
      simp only [allWs, List.all_cons, Bool.and_eq_true] at hw1
      rw [List.cons_append, dropWhile_cons_neg (space_not_digit hw1.1),
        ← List.cons_append]
      have hw1' : allWs (a :: as) = true := by
        simp only [allWs, List.all_cons, Bool.and_eq_true]
        exact hw1
      rw [dropWhile_append_all hw1', dropWhile_head_neg hX1]

theorem rewriterDefMatch_isSome_iff {l n : Line} (hv : validTok n = true) :
    (rewriterDefMatch l n).isSome = true ↔ RelaxDefStmt l n := by
  constructor
  · intro h
    unfold rewriterDefMatch at h
    simp only [takeWhile_length_drop] at h
    split at h
    · exact absurd h (by simp)
    · rename_i r4 hcd
      split at h
      · exact absurd h (by simp)
      · rename_i w3 t hws
        obtain ⟨pk, hpk1, hpk2⟩ := ciDrop_some hcd
        obtain ⟨nm, hr4, hw3ne, hw3all, hci, ht⟩ := wsPlusLit_some hws
        refine ⟨l.takeWhile isSpaceCh,
          (l.dropWhile isSpaceCh).takeWhile isDigitCh,
          (((l.dropWhile isSpaceCh).dropWhile isDigitCh)).takeWhile isSpaceCh,
          pk, w3, nm, t, ?_, List.all_takeWhile .., List.all_takeWhile ..,
          List.all_takeWhile .., hpk2, hw3ne, hw3all, hci, ht⟩
        have e0 : l = l.takeWhile isSpaceCh ++ l.dropWhile isSpaceCh :=
          (List.takeWhile_append_dropWhile (p := isSpaceCh) (l := l)).symm
        have e1 : l.dropWhile isSpaceCh
            = (l.dropWhile isSpaceCh).takeWhile isDigitCh
              ++ (l.dropWhile isSpaceCh).dropWhile isDigitCh :=
          (List.takeWhile_append_dropWhile ..).symm
        have e2 : (l.dropWhile isSpaceCh).dropWhile isDigitCh
            = ((l.dropWhile isSpaceCh).dropWhile isDigitCh).takeWhile isSpaceCh
              ++ ((l.dropWhile isSpaceCh).dropWhile isDigitCh).dropWhile
                isSpaceCh :=
          (List.takeWhile_append_dropWhile ..).symm
        conv_lhs => rw [e0, e1, e2, hpk1, hr4]
        simp [List.append_assoc]
  · rintro ⟨w0, ds, w1, pk, w2, nm, w3, rfl, hw0, hds, hw1, hpk, hw2ne, hw2,
      hci, hw3⟩
    obtain ⟨p, ps, hpkeq, hpws, hpdg, _⟩ := pk_facts hpk
    have hXne : pk ++ (w2 ++ (nm ++ w3)) ≠ [] := by
      subst hpkeq; simp
    have hX1 : isSpaceCh ((pk ++ (w2 ++ (nm ++ w3))).headD 0) = false := by
      rw [headD_append_left (by subst hpkeq; simp), hpkeq]
      simpa using hpws
    have hX2 : isDigitCh ((pk ++ (w2 ++ (nm ++ w3))).headD 0) = false := by
      rw [headD_append_left (by subst hpkeq; simp), hpkeq]
      simpa using hpdg
    have he : w0 ++ ds ++ w1 ++ pk ++ w2 ++ nm ++ w3
        = w0 ++ (ds ++ (w1 ++ (pk ++ (w2 ++ (nm ++ w3))))) := by
      simp [List.append_assoc]
    rw [he]
    unfold rewriterDefMatch
    simp only [takeWhile_length_drop]
    rw [relax_parse_core hw0 hds hw1 hX1 hX2, ciDrop_append hpk]
    simp [wsPlusLit_eval hw2ne hw2 hci (ciEqL_validTok hv hci) hw3]

/-- C1, counterexample.  On the line `12PROC ALPHA` the Rewriter's
definition branch fires for the name `ALPHA` (its pattern
`^(\s*\d*\s*PROC\s+)ALPHA(\s*)$` does not require whitespace between the
digits and the keyword), while the Definition Scanner rejects the line (its
label group `(\d+\s+)?` demands whitespace after the digits), so the
DefinitionIndex of this one-line text is empty: the two components do not
decide definition lines by the same pattern. -/
theorem C1_counterexample :
    (rewriterDefMatch (s2l "12PROC ALPHA") (s2l "ALPHA")).isSome = true ∧
    parseDefLine (stripWs (s2l "12PROC ALPHA")) = none ∧
    find_all_procedures (s2l "12PROC ALPHA") = [] := by
  decide

/-- C1, amended.  For a canonical (upper-cased) name, the Rewriter's
definition branch fires exactly on the lines of the relaxed shape
`\s* digits* \s* PROC \s+ name \s*` — optional whitespace, an optional digit
run NOT required to be followed by whitespace, more optional whitespace, the
keyword, mandatory whitespace, the name (case-insensitively) and trailing
whitespace.  Every line the Definition Scanner records for that name is of
this shape, so the Rewriter's branch fires on a strict superset of the
scanner's definition lines. -/
theorem C1_rewriter_def_branch (l n : Line) (hu : upperTok n = true) :
    ((rewriterDefMatch l n).isSome = true ↔ RelaxDefStmt l n) ∧
    (parseDefLine (stripWs l) = some n →
      (rewriterDefMatch l n).isSome = true) := by
  have hv : validTok n = true := upperTok_validTok hu
  refine ⟨rewriterDefMatch_isSome_iff hv, ?_⟩
  intro h
  rw [parseDefLine_strip_iff] at h
  obtain ⟨w0, lab, pk, w2, tok, w3, rfl, hw0, hlab, hpk, hw2ne, hw2, htok,
    hw3, hN⟩ := h
  apply (rewriterDefMatch_isSome_iff hv).mpr
  have hci : ciEqL n tok = true := by
    rw [ciEqL_iff_map_upCh, upperTok_map_upCh hu]
    exact hN
  rcases hlab with rfl | ⟨d, wd, rfl, hdne, hdall, hwdne, hwdall⟩
  · exact ⟨w0, [], [], pk, w2, tok, w3, by simp, hw0, by decide, by decide,
      hpk, hw2ne, hw2, hci, hw3⟩
  · refine ⟨w0, d, wd, pk, w2, tok, w3, ?_, hw0, hdall, hwdall, hpk, hw2ne,
      hw2, hci, hw3⟩
    simp [List.append_assoc]

/-- Witness for C1's amended theorem at the line `12PROC ALPHA` and the name
`ALPHA`. -/
theorem C1_rewriter_def_branch_witness :
    ((rewriterDefMatch (s2l "12PROC ALPHA") (s2l "ALPHA")).isSome = true ↔
        RelaxDefStmt (s2l "12PROC ALPHA") (s2l "ALPHA")) ∧
    (parseDefLine (stripWs (s2l "12PROC ALPHA")) = some (s2l "ALPHA") →
        (rewriterDefMatch (s2l "12PROC ALPHA") (s2l "ALPHA")).isSome = true) :=
  C1_rewriter_def_branch (s2l "12PROC ALPHA") (s2l "ALPHA") (by decide)

theorem headD_mem {y : Line} (h : y ≠ []) : y.headD 0 ∈ y := by
  cases y with
  | nil => exact absurd rfl h
  | cons c cs => simp

theorem all_alnum_word {l : Line} (h : l.all isAlnumCh = true) :
    l.all isWordCh = true := by
  rw [List.all_eq_true] at h ⊢
  intro c hc
  exact alnum_word (h c hc)

theorem validTok_all_word {n : Line} (h : validTok n = true) :
    n.all isWordCh = true :=
  all_alnum_word (validTok_elim h).2.2

theorem wordHit_true_prev {n : Line} (hv : validTok n = true) {l : Line} :
    wordHit n true l = false := by
  cases n with
  | nil => simp [validTok] at hv
  | cons p ps =>
    have hpw : isWordCh p = true := by
      have h := validTok_head_word hv
      simpa using h
    cases l with
    | nil => simp [wordHit, ciDropLast]
    | cons c cs =>
      unfold wordHit
      cases hcw : isWordCh c with
      | true =>
        have hh : headWord (c :: cs) = true := by
          rw [headWord_eq_headD (by simp)]
          simpa using hcw
        rw [hh]
        simp
      | false =>
        have hpc : ciEqCh p c = false := by
          cases hx : ciEqCh p c with
          | false => rfl
          | true =>
            rw [ciEqCh_word hx] at hpw
            rw [hpw] at hcw
            exact absurd hcw (by simp)
        simp [ciDropLast, hpc]

theorem wordHit_nonword_head {n : Line} (hv : validTok n = true) {c : Nat}
    {cs : Line} (hc : isWordCh c = false) {pw : Bool} :
    wordHit n pw (c :: cs) = false := by
  cases n with
  | nil => simp [validTok] at hv
  | cons p ps =>
    have hpw : isWordCh p = true := by
      have h := validTok_head_word hv
      simpa using h
    have hpc : ciEqCh p c = false := by
      cases hx : ciEqCh p c with
      | false => rfl
      | true =>
        rw [ciEqCh_word hx] at hpw
        rw [hpw] at hc
        exact absurd hc (by simp)
    simp [wordHit, ciDropLast, hpc]

theorem NoHit_any_of_false {n : Line} (hv : validTok n = true) {l : Line}
    (h : NoHit n false l = true) : ∀ {pw : Bool}, NoHit n pw l = true := by
  intro pw
  cases pw with
  | false => exact h
  | true =>
    cases l with
    | nil => rfl
    | cons c cs =>
      unfold NoHit at h ⊢
      rw [Bool.and_eq_true] at h
      rw [wordHit_true_prev hv]
      simpa using h.2

theorem NoHit_run_true {n : Line} (hv : validTok n = true) :
    ∀ {t rest : Line}, t.all isWordCh = true → NoHit n true rest = true →
      NoHit n true (t ++ rest) = true := by
  intro t
  induction t with
  | nil => intro rest _ h; exact h
  | cons c cs ih =>
    intro rest ht h
    simp only [List.all_cons, Bool.and_eq_true] at ht
    rw [List.cons_append]
    unfold NoHit
    rw [wordHit_true_prev hv, ht.1]
    simpa using ih ht.2 h

theorem NoHit_ws_skip {n : Line} (hv : validTok n = true) :
    ∀ {w rest : Line}, allWs w = true → NoHit n false rest = true →
      ∀ {pw : Bool}, NoHit n pw (w ++ rest) = true := by
  intro w
  induction w with
  | nil => intro rest _ h pw; exact NoHit_any_of_false hv h
  | cons c cs ih =>
    intro rest hw h pw
    simp only [allWs, List.all_cons, Bool.and_eq_true] at hw
    rw [List.cons_append]
    unfold NoHit
    rw [wordHit_nonword_head hv (space_not_word hw.1), space_not_word hw.1]
    have hcs : allWs cs = true := by
      simp only [allWs]
      exact hw.2
    simpa using ih hcs h

theorem take_head_mem {y : Line} {j : Nat} (hj : 1 ≤ j) (hy : y ≠ []) :
    y.headD 0 ∈ y.take j := by
  cases y with
  | nil => exact absurd rfl hy
  | cons c cs =>
    obtain ⟨m, rfl⟩ : ∃ m, j = m + 1 := ⟨j - 1, by omega⟩
    simp [List.take_succ_cons]

theorem wordHit_token_start {n : Line} (hv : validTok n = true) {t rest : Line}
    (htw : t.all isWordCh = true) (_htne : t ≠ [])
    (hrest : rest = [] ∨ isWordCh (rest.headD 0) = false)
    (hne : ciEqL n t = false) :
    wordHit n false (t ++ rest) = false := by
  unfold wordHit
  cases hd : ciDropLast n (t ++ rest) with
  | none => simp [hd]
  | some pr =>
    obtain ⟨lastC, r⟩ := pr
    obtain ⟨nm, heq, hci, hcase⟩ := ciDropLast_some hd
    rcases hcase with ⟨hn0, _⟩ | ⟨hn0, hnm, hlast⟩
    · exact absurd hn0 (validTok_elim hv).1
    · have hlw : isWordCh (nm.getLastD 0) = true := by
        rw [ciEqL_last_word hci (validTok_elim hv).1]
        exact validTok_last_word hv
      have hknm : nm = t.take nm.length ++ rest.take (nm.length - t.length) := by
        have h1 : nm = (t ++ rest).take nm.length := by
          rw [heq, List.take_left]
        rw [List.take_append_eq_append_take] at h1
        exact h1
      have hrr : r = t.drop nm.length ++ rest.drop (nm.length - t.length) := by
        have h1 : r = (t ++ rest).drop nm.length := by
          rw [heq, List.drop_left]
        rw [List.drop_append_eq_append_drop] at h1
        exact h1
      rcases Nat.lt_trichotomy nm.length t.length with hlt | heqk | hgt
      · have hdne : t.drop nm.length ≠ [] := by
          intro hnil
          have hc := congrArg List.length hnil
          simp at hc
          omega
        have hh : headWord r = true := by
          rw [hrr, headWord_eq_headD (by simp [hdne]), headD_append_left hdne]
          have hmem : (t.drop nm.length).headD 0 ∈ t :=
            List.mem_of_mem_drop (headD_mem hdne)
          exact List.all_eq_true.mp htw _ hmem
        subst hlast
        rw [List.getLastD_eq_getLast?] at hlw
        simp [hd, hlw, hh]
      · have hnt : nm = t := by
          conv_lhs => rw [hknm]
          rw [heqk]
          simp
        rw [hnt] at hci
        rw [hci] at hne
        exact absurd hne (by decide)
      · have hkle : nm.length ≤ t.length + rest.length := by
          have hc := congrArg List.length heq
          simp at hc
          omega
        have hrne : rest ≠ [] := by
          intro hnil
          rw [hnil] at hkle
          simp at hkle
          omega
        have hnw : nm.all isWordCh = true :=
          all_alnum_word (ciEqL_all_alnum hci (validTok_elim hv).2.2)
        have hmem : rest.headD 0 ∈ nm := by
          rw [hknm]
          exact List.mem_append_right _ (take_head_mem (by omega) hrne)
        have hw := List.all_eq_true.mp hnw _ hmem
        rcases hrest with h | h
        · exact absurd h hrne
        · rw [h] at hw
          exact absurd hw (by simp)

theorem NoHit_token_skip {n : Line} (hv : validTok n = true) {t rest : Line}
    (htw : t.all isWordCh = true) (htne : t ≠ [])
    (hrest : rest = [] ∨ isWordCh (rest.headD 0) = false)
    (hne : ciEqL n t = false) (h : NoHit n false rest = true) :
    ∀ {pw : Bool}, NoHit n pw (t ++ rest) = true := by
  intro pw
  cases t with
  | nil => exact absurd rfl htne
  | cons c cs =>
    rw [List.cons_append]
    unfold NoHit
    simp only [List.all_cons, Bool.and_eq_true] at htw
    have h2 : NoHit n true (cs ++ rest) = true :=
      NoHit_run_true hv htw.2 (NoHit_any_of_false hv h)
    rw [htw.1]
    have h1 : wordHit n pw (c :: (cs ++ rest)) = false := by
      cases pw with
      | true => exact wordHit_true_prev hv
      | false =>
        rw [← List.cons_append]
        exact wordHit_token_start hv
          (by simp only [List.all_cons, Bool.and_eq_true]; exact htw)
          (by simp) hrest hne
    rw [h1]
    simpa using h2

theorem subGo_noop {n s : Line} :
    ∀ (fuel : Nat) {pw : Bool} {l : Line}, NoHit n pw l = true →
      subGo n s fuel pw l = l := by
  intro fuel
  induction fuel with
  | zero => intro pw l _; rfl
  | succ f ih =>
    intro pw l h
    cases l with
    | nil => rfl
    | cons c cs =>
      unfold NoHit at h
      rw [Bool.and_eq_true] at h
      unfold subGo
      rw [if_neg]
      · rw [ih (by simpa using h.2)]
      · intro hcon
        rw [hcon.2] at h
        simp at h

theorem subWordCi_noop {n s l : Line} (h : NoHit n false l = true) :
    subWordCi n s l = l :=
  subGo_noop l.length h

/-! ## The Rewriter's definition branch on definition-shaped lines -/

theorem litHere_none {M tok w3 : Line} (hM : validTok M = true)
    (ht : validTok tok = true) (hw3 : allWs w3 = true)
    (hne : ciEqL M tok = false) : litHere M (tok ++ w3) = none := by
  unfold litHere
  split
  · rfl
  · rename_i rest hcd
    obtain ⟨m, hm, hci⟩ := ciDrop_some hcd
    have hne2 : (rest.dropWhile isSpaceCh).isEmpty = false := by
      rcases List.append_eq_append_iff.mp hm with ⟨a, ha1, ha2⟩ | ⟨c, hc1, hc2⟩
      · exfalso
        rcases a with _ | ⟨x, xs⟩
        · rw [List.append_nil] at ha1
          rw [ha1] at hci
          rw [hci] at hne
          exact absurd hne (by decide)
        · have hxm : x ∈ m := by
            rw [ha1]
            exact List.mem_append_right _ (by simp)
          have halnum : isAlnumCh x = true :=
            List.all_eq_true.mp (ciEqL_all_alnum hci (validTok_elim hM).2.2) _ hxm
          have hxw : isSpaceCh x = true := by
            have hxmem : x ∈ w3 := by
              rw [ha2]
              simp
            have hall : w3.all isSpaceCh = true := hw3
            exact List.all_eq_true.mp hall _ hxmem
          rw [alnum_not_space halnum] at hxw
          exact absurd hxw (by decide)
      · rcases c with _ | ⟨x, xs⟩
        · rw [List.append_nil] at hc1
          rw [hc1] at hne
          rw [hci] at hne
          exact absurd hne (by decide)
        · have hxt : x ∈ tok := by
            rw [hc1]
            exact List.mem_append_right _ (by simp)
          have halnum : isAlnumCh x = true :=
            List.all_eq_true.mp (validTok_elim ht).2.2 _ hxt
          rw [hc2, List.cons_append, dropWhile_cons_neg (alnum_not_space halnum)]
          simp
    rw [hne2]
    simp

theorem ciEqCh_alpha_space_false {p c : Nat} (hp : isAlphaCh p = true)
    (hc : isSpaceCh c = true) : ciEqCh p c = false := by
  cases hx : ciEqCh p c with
  | false => rfl
  | true =>
    have h := ciEqCh_space hx
    rw [hc] at h
    rw [alnum_not_space (alpha_alnum hp)] at h
    exact absurd h (by decide)

theorem litHere_ws_head {M : Line} (hM : validTok M = true) {c : Nat} {r : Line}
    (hc : isSpaceCh c = true) : litHere M (c :: r) = none := by
  obtain ⟨hMne, hMhd, _⟩ := validTok_elim hM
  obtain ⟨p, ps, rfl⟩ : ∃ p ps, M = p :: ps := by
    cases M with
    | nil => exact absurd rfl hMne
    | cons p ps => exact ⟨p, ps, rfl⟩
  simp only [List.headD_cons] at hMhd
  unfold litHere
  have hcd : ciDrop (p :: ps) (c :: r) = none := by
    unfold ciDrop
    rw [ciEqCh_alpha_space_false hMhd hc]
    simp
  rw [hcd]

theorem wsStarLit_none {M tok w3 : Line} (hM : validTok M = true)
    (ht : validTok tok = true) (hw3 : allWs w3 = true)
    (hne : ciEqL M tok = false) :
    ∀ {w2 : Line}, allWs w2 = true → wsStarLit M (w2 ++ (tok ++ w3)) = none := by
  intro w2
  induction w2 with
  | nil =>
    intro _
    rw [List.nil_append]
    obtain ⟨hne0, hhd, _⟩ := validTok_elim ht
    obtain ⟨c, cs, rfl⟩ : ∃ c cs, tok = c :: cs := by
      cases tok with
      | nil => exact absurd rfl hne0
      | cons c cs => exact ⟨c, cs, rfl⟩
    simp only [List.headD_cons] at hhd
    rw [List.cons_append]
    simp only [wsStarLit]
    rw [if_neg (by simp [alnum_not_space (alpha_alnum hhd)])]
    rw [← List.cons_append]
    exact litHere_none hM ht hw3 hne
  | cons c cs ih =>
    intro hw
    simp only [allWs, List.all_cons, Bool.and_eq_true] at hw
    rw [List.cons_append]
    simp only [wsStarLit]
    rw [if_pos hw.1, ih (by simp only [allWs]; exact hw.2)]
    exact litHere_ws_head hM hw.1

theorem wsPlusLit_none {M w2 tok w3 : Line} (hM : validTok M = true)
    (hw2 : allWs w2 = true) (ht : validTok tok = true) (hw3 : allWs w3 = true)
    (hne : ciEqL M tok = false) : wsPlusLit M (w2 ++ (tok ++ w3)) = none := by
  cases w2 with
  | nil =>
    rw [List.nil_append]
    obtain ⟨hne0, hhd, _⟩ := validTok_elim ht
    obtain ⟨c, cs, rfl⟩ : ∃ c cs, tok = c :: cs := by
      cases tok with
      | nil => exact absurd rfl hne0
      | cons c cs => exact ⟨c, cs, rfl⟩
    simp only [List.headD_cons] at hhd
    rw [List.cons_append]
    simp only [wsPlusLit]
    rw [if_neg (by simp [alnum_not_space (alpha_alnum hhd)])]
  | cons c cs =>
    simp only [allWs, List.all_cons, Bool.and_eq_true] at hw2
    rw [List.cons_append]
    simp only [wsPlusLit]
    rw [if_pos hw2.1,
      wsStarLit_none hM ht hw3 hne (by simp only [allWs]; exact hw2.2)]

theorem rewriterDefMatch_none {M w0 ds w1 pk w2 tok w3 : Line}
    (hM : validTok M = true)
    (hw0 : allWs w0 = true) (hds : allDigit ds = true) (hw1 : allWs w1 = true)
    (hpk : ciEqL kwPROC pk = true) (hw2 : allWs w2 = true)
    (ht : validTok tok = true) (hw3 : allWs w3 = true)
    (hne : ciEqL M tok = false) :
    rewriterDefMatch (w0 ++ (ds ++ (w1 ++ (pk ++ (w2 ++ (tok ++ w3)))))) M
      = none := by
  obtain ⟨p, ps, hpkeq, hpws, hpdg, _⟩ := pk_facts hpk
  have hX1 : isSpaceCh ((pk ++ (w2 ++ (tok ++ w3))).headD 0) = false := by
    rw [headD_append_left (by subst hpkeq; simp), hpkeq]
    simpa using hpws
  have hX2 : isDigitCh ((pk ++ (w2 ++ (tok ++ w3))).headD 0) = false := by
    rw [headD_append_left (by subst hpkeq; simp), hpkeq]
    simpa using hpdg
  unfold rewriterDefMatch
  simp only [takeWhile_length_drop]
  rw [relax_parse_core hw0 hds hw1 hX1 hX2, ciDrop_append hpk]
  simp [wsPlusLit_none hM hw2 ht hw3 hne]

theorem append_right_cancel_line {a b c : Line} (h : a ++ c = b ++ c) :
    a = b := by
  have hlen : a.length = b.length := by
    have hc := congrArg List.length h
    simp only [List.length_append] at hc
    omega
  have ha : a = (a ++ c).take a.length := by
    rw [List.take_left]
  rw [ha, h, hlen, List.take_left]

theorem rewriterDefMatch_eval {n w0 ds w1 pk w2 nm w3 : Line}
    (hw0 : allWs w0 = true) (hds : allDigit ds = true) (hw1 : allWs w1 = true)
    (hpk : ciEqL kwPROC pk = true) (hw2ne : w2 ≠ []) (hw2 : allWs w2 = true)
    (hci : ciEqL n nm = true) (hnm : validTok nm = true)
    (hw3 : allWs w3 = true) :
    rewriterDefMatch (w0 ++ (ds ++ (w1 ++ (pk ++ (w2 ++ (nm ++ w3)))))) n
      = some (w0 ++ ds ++ w1 ++ pk ++ w2, w3) := by
  obtain ⟨p, ps, hpkeq, hpws, hpdg, _⟩ := pk_facts hpk
  have hX1 : isSpaceCh ((pk ++ (w2 ++ (nm ++ w3))).headD 0) = false := by
    rw [headD_append_left (by subst hpkeq; simp), hpkeq]
    simpa using hpws
  have hX2 : isDigitCh ((pk ++ (w2 ++ (nm ++ w3))).headD 0) = false := by
    rw [headD_append_left (by subst hpkeq; simp), hpkeq]
    simpa using hpdg
  have hcore := relax_parse_core (X := pk ++ (w2 ++ (nm ++ w3)))
    hw0 hds hw1 hX1 hX2
  have e1 : (w0 ++ (ds ++ (w1 ++ (pk ++ (w2 ++ (nm ++ w3)))))).takeWhile
        isSpaceCh
      ++ (((w0 ++ (ds ++ (w1 ++ (pk ++ (w2 ++ (nm ++ w3)))))).dropWhile
            isSpaceCh).takeWhile isDigitCh
        ++ ((((w0 ++ (ds ++ (w1 ++ (pk ++ (w2 ++ (nm ++ w3)))))).dropWhile
              isSpaceCh).dropWhile isDigitCh).takeWhile isSpaceCh
          ++ (pk ++ (w2 ++ (nm ++ w3)))))
      = w0 ++ (ds ++ (w1 ++ (pk ++ (w2 ++ (nm ++ w3))))) := by
    conv_rhs => rw [← List.takeWhile_append_dropWhile (p := isSpaceCh)
      (l := w0 ++ (ds ++ (w1 ++ (pk ++ (w2 ++ (nm ++ w3))))))]
    congr 1
    conv_rhs => rw [← List.takeWhile_append_dropWhile (p := isDigitCh)
      (l := (w0 ++ (ds ++ (w1 ++ (pk ++ (w2 ++ (nm ++ w3)))))).dropWhile
        isSpaceCh)]
    congr 1
    conv_rhs => rw [← List.takeWhile_append_dropWhile (p := isSpaceCh)
      (l := ((w0 ++ (ds ++ (w1 ++ (pk ++ (w2 ++ (nm ++ w3)))))).dropWhile
        isSpaceCh).dropWhile isDigitCh)]
    congr 1
    exact hcore.symm
  have hT : (w0 ++ (ds ++ (w1 ++ (pk ++ (w2 ++ (nm ++ w3)))))).takeWhile
        isSpaceCh
      ++ ((w0 ++ (ds ++ (w1 ++ (pk ++ (w2 ++ (nm ++ w3)))))).dropWhile
          isSpaceCh).takeWhile isDigitCh
      ++ (((w0 ++ (ds ++ (w1 ++ (pk ++ (w2 ++ (nm ++ w3)))))).dropWhile
          isSpaceCh).dropWhile isDigitCh).takeWhile isSpaceCh
      = w0 ++ ds ++ w1 := by
    apply append_right_cancel_line (c := pk ++ (w2 ++ (nm ++ w3)))
    calc _ = (w0 ++ (ds ++ (w1 ++ (pk ++ (w2 ++ (nm ++ w3)))))).takeWhile
          isSpaceCh
        ++ (((w0 ++ (ds ++ (w1 ++ (pk ++ (w2 ++ (nm ++ w3)))))).dropWhile
              isSpaceCh).takeWhile isDigitCh
          ++ ((((w0 ++ (ds ++ (w1 ++ (pk ++ (w2 ++ (nm ++ w3)))))).dropWhile
                isSpaceCh).dropWhile isDigitCh).takeWhile isSpaceCh
            ++ (pk ++ (w2 ++ (nm ++ w3))))) := by
          simp [List.append_assoc]
      _ = w0 ++ (ds ++ (w1 ++ (pk ++ (w2 ++ (nm ++ w3))))) := e1
      _ = (w0 ++ ds ++ w1) ++ (pk ++ (w2 ++ (nm ++ w3))) := by
          simp [List.append_assoc]
  have htake : (pk ++ (w2 ++ (nm ++ w3))).take 4 = pk := by
    have hlen : pk.length = 4 := by
      have hc := ciEqL_length hpk
      simpa [kwPROC] using hc.symm
    rw [← hlen, List.take_left]
  unfold rewriterDefMatch
  simp only [takeWhile_length_drop]
  rw [hcore, ciDrop_append hpk]
  simp only [wsPlusLit_eval hw2ne hw2 hci hnm hw3, htake]
  rw [show (w0 ++ (ds ++ (w1 ++ (pk ++ (w2 ++ (nm ++ w3)))))).takeWhile
        isSpaceCh
      ++ ((w0 ++ (ds ++ (w1 ++ (pk ++ (w2 ++ (nm ++ w3)))))).dropWhile
          isSpaceCh).takeWhile isDigitCh
      ++ (((w0 ++ (ds ++ (w1 ++ (pk ++ (w2 ++ (nm ++ w3)))))).dropWhile
          isSpaceCh).dropWhile isDigitCh).takeWhile isSpaceCh
      ++ pk ++ w2
      = (w0 ++ ds ++ w1) ++ pk ++ w2 from by rw [hT]]

/-! ## Canonical (upper-cased) name tokens -/

theorem isPref_exists {a : Line} : ∀ {b : Line}, isPref a b = true →
    ∃ r, b = a ++ r := by
  induction a with
  | nil => intro b _; exact ⟨b, rfl⟩
  | cons x xs ih =>
    intro b h
    cases b with
    | nil => simp [isPref] at h
    | cons y ys =>
      simp only [isPref, Bool.and_eq_true, decide_eq_true_eq] at h
      obtain ⟨r, hr⟩ := ih h.2
      exact ⟨r, by rw [h.1, hr]; rfl⟩

theorem isLowerCh_upCh (c : Nat) : isLowerCh (upCh c) = false := by
  unfold upCh
  split
  · rename_i h
    unfold isLowerCh at h ⊢
    simp only [Bool.and_eq_true, decide_eq_true_eq] at h
    simp only [Bool.and_eq_true, decide_eq_true_eq, Bool.eq_false_iff, ne_eq,
      not_and, not_le]
    omega
  · rename_i h
    exact Bool.not_eq_true _ ▸ (by simpa using h)

theorem map_upCh_upperTok {tok : Line} (ht : validTok tok = true) :
    upperTok (tok.map upCh) = true := by
  obtain ⟨hne, hhd, hall⟩ := validTok_elim ht
  unfold upperTok
  rw [Bool.and_eq_true]
  constructor
  · apply validTok_of
    · simp [hne]
    · obtain ⟨c, cs, rfl⟩ : ∃ c cs, tok = c :: cs := by
        cases tok with
        | nil => exact absurd rfl hne
        | cons c cs => exact ⟨c, cs, rfl⟩
      simp only [List.map_cons, List.headD_cons] at hhd ⊢
      rw [isAlphaCh_upCh]
      exact hhd
    · rw [List.all_eq_true] at hall ⊢
      intro c hc
      obtain ⟨d, hd, rfl⟩ := List.mem_map.mp hc
      rw [isAlnumCh_upCh]
      exact hall d hd
  · rw [List.all_eq_true]
    intro c hc
    obtain ⟨d, _, rfl⟩ := List.mem_map.mp hc
    simp [isLowerCh_upCh]

theorem parse_some_upperTok {l N : Line} (h : parseDefLine (stripWs l) = some N) :
    upperTok N = true := by
  obtain ⟨w0, lab, pk, w2, tok, w3, _, _, _, _, _, _, htok, _, hN⟩ :=
    parseDefLine_strip_iff.mp h
  rw [hN]
  exact map_upCh_upperTok htok

theorem map_upCh_idem (l : Line) : (l.map upCh).map upCh = l.map upCh := by
  rw [List.map_map]
  apply List.map_congr_left
  intro c _
  exact upCh_upCh c

theorem ciEqL_canon {M t : Line} (hu : upperTok M = true) :
    ciEqL M t = true ↔ M = t.map upCh := by
  rw [ciEqL_iff_map_upCh, upperTok_map_upCh hu]

theorem ciEqL_canon_false {M t : Line} (hu : upperTok M = true)
    (h : M ≠ t.map upCh) : ciEqL M t = false := by
  cases hx : ciEqL M t with
  | false => rfl
  | true => exact absurd ((ciEqL_canon hu).mp hx) h

theorem digit_alnum {c : Nat} (h : isDigitCh c = true) : isAlnumCh c = true := by
  unfold isAlnumCh
  rw [h]
  simp

theorem all_digit_word {d : Line} (h : allDigit d = true) :
    d.all isWordCh = true := by
  rw [List.all_eq_true]
  intro c hc
  have hd : isDigitCh c = true := List.all_eq_true.mp h _ hc
  exact alnum_word (digit_alnum hd)

theorem ciEqL_alpha_digit_false {M d : Line} (hM : validTok M = true)
    (hd : allDigit d = true) (hdne : d ≠ []) : ciEqL M d = false := by
  obtain ⟨hMne, hMhd, _⟩ := validTok_elim hM
  obtain ⟨p, ps, rfl⟩ : ∃ p ps, M = p :: ps := by
    cases M with
    | nil => exact absurd rfl hMne
    | cons p ps => exact ⟨p, ps, rfl⟩
  obtain ⟨e, es, rfl⟩ : ∃ e es, d = e :: es := by
    cases d with
    | nil => exact absurd rfl hdne
    | cons e es => exact ⟨e, es, rfl⟩
  simp only [List.headD_cons] at hMhd
  simp only [allDigit, List.all_cons, Bool.and_eq_true] at hd
  have hpe : ciEqCh p e = false := by
    cases hx : ciEqCh p e with
    | false => rfl
    | true =>
      have h1 := ciEqCh_digit hx
      rw [hd.1, alpha_not_digit hMhd] at h1
      exact absurd h1 (by decide)
  simp [ciEqL, hpe]

theorem upperTok_isPref {N S : Line} (hN : upperTok N = true)
    (hp : isPref S N = true) (hSne : S ≠ []) : upperTok S = true := by
  obtain ⟨r, rfl⟩ := isPref_exists hp
  unfold upperTok at hN ⊢
  rw [Bool.and_eq_true] at hN
  rw [Bool.and_eq_true]
  obtain ⟨hv, hlow⟩ := hN
  obtain ⟨hne, hhd, hall⟩ := validTok_elim hv
  constructor
  · apply validTok_of hSne
    · rw [headD_append_left hSne] at hhd
      exact hhd
    · rw [List.all_append, Bool.and_eq_true] at hall
      exact hall.1
  · rw [List.all_append, Bool.and_eq_true] at hlow
    exact hlow.1

theorem foldl_keep {α β : Type} {f : α → β → α} {a : α} :
    ∀ {l : List β}, (∀ e ∈ l, f a e = a) → l.foldl f a = a := by
  intro l
  induction l with
  | nil => intro _; rfl
  | cons e es ih =>
    intro h
    rw [List.foldl_cons, h e (by simp)]
    exact ih (fun x hx => h x (by simp [hx]))

theorem commentOrBlank_parse_none {l : Line} (h : commentOrBlank l = true) :
    parseDefLine (stripWs l) = none := by
  unfold commentOrBlank at h
  rw [Bool.or_eq_true] at h
  rcases h with h | h
  · rw [List.isEmpty_iff.mp h]
    rfl
  · exact parseDefLine_comment (by simpa using h)

theorem defline_not_comment {l N : Line}
    (h : parseDefLine (stripWs l) = some N) : commentOrBlank l = false := by
  cases hc : commentOrBlank l with
  | false => rfl
  | true =>
    rw [commentOrBlank_parse_none hc] at h
    exact absurd h (by simp)

theorem NoHit_defline {M w0 lab pk w2 t w3 : Line}
    (hM : validTok M = true) (hw0 : allWs w0 = true) (hlab : LabOk lab)
    (hpk : ciEqL kwPROC pk = true) (hw2ne : w2 ≠ []) (hw2 : allWs w2 = true)
    (ht : validTok t = true) (hw3 : allWs w3 = true)
    (hMpk : ciEqL M pk = false) (hMt : ciEqL M t = false) :
    NoHit M false (w0 ++ lab ++ pk ++ w2 ++ t ++ w3) = true := by
  have hw3' : NoHit M false w3 = true := by
    have h : NoHit M false (w3 ++ []) = true :=
      NoHit_ws_skip hM hw3 (show NoHit M false ([] : Line) = true from rfl)
    simpa using h
  have h2 : NoHit M false (t ++ w3) = true := by
    apply NoHit_token_skip hM (validTok_all_word ht) (validTok_elim ht).1 ?_
      hMt hw3'
    cases w3 with
    | nil => exact Or.inl rfl
    | cons c cs =>
      right
      simp only [List.headD_cons]
      have hw3c := hw3
      simp only [allWs, List.all_cons, Bool.and_eq_true] at hw3c
      exact space_not_word hw3c.1
  have h3 : NoHit M false (w2 ++ (t ++ w3)) = true := NoHit_ws_skip hM hw2 h2
  have hpkw : pk.all isWordCh = true :=
    all_alnum_word (ciEqL_all_alnum hpk (by decide))
  have hpkne : pk ≠ [] := by
    obtain ⟨p, ps, hpkeq, _, _, _⟩ := pk_facts hpk
    simp [hpkeq]
  have h4 : NoHit M false (pk ++ (w2 ++ (t ++ w3))) = true := by
    apply NoHit_token_skip hM hpkw hpkne ?_ hMpk h3
    right
    rw [headD_append_left hw2ne]
    have hall : w2.all isSpaceCh = true := hw2
    exact space_not_word (List.all_eq_true.mp hall _ (headD_mem hw2ne))
  have h5 : NoHit M false (lab ++ (pk ++ (w2 ++ (t ++ w3)))) = true := by
    rcases hlab with rfl | ⟨d, wd, rfl, hdne, hdall, hwdne, hwdall⟩
    · simpa using h4
    · have h5a : NoHit M false (wd ++ (pk ++ (w2 ++ (t ++ w3)))) = true :=
        NoHit_ws_skip hM hwdall h4
      have h5b : NoHit M false (d ++ (wd ++ (pk ++ (w2 ++ (t ++ w3))))) = true := by
        apply NoHit_token_skip hM (all_digit_word hdall) hdne ?_
          (ciEqL_alpha_digit_false hM hdall hdne) h5a
        right
        rw [headD_append_left hwdne]
        have hall : wd.all isSpaceCh = true := hwdall
        exact space_not_word (List.all_eq_true.mp hall _ (headD_mem hwdne))
      have he : (d ++ wd) ++ (pk ++ (w2 ++ (t ++ w3)))
          = d ++ (wd ++ (pk ++ (w2 ++ (t ++ w3)))) := by
        simp [List.append_assoc]
      rw [he]
      exact h5b
  have h6 : NoHit M false (w0 ++ (lab ++ (pk ++ (w2 ++ (t ++ w3))))) = true :=
    NoHit_ws_skip hM hw0 h5
  have he : w0 ++ lab ++ pk ++ w2 ++ t ++ w3
      = w0 ++ (lab ++ (pk ++ (w2 ++ (t ++ w3)))) := by
    simp [List.append_assoc]
  rw [he]
  exact h6

theorem rewriterDefMatch_none_def {M w0 lab pk w2 t w3 : Line}
    (hM : validTok M = true) (hw0 : allWs w0 = true) (hlab : LabOk lab)
    (hpk : ciEqL kwPROC pk = true) (hw2 : allWs w2 = true)
    (ht : validTok t = true) (hw3 : allWs w3 = true)
    (hne : ciEqL M t = false) :
    rewriterDefMatch (w0 ++ lab ++ pk ++ w2 ++ t ++ w3) M = none := by
  rcases hlab with rfl | ⟨d, wd, rfl, hdne, hdall, hwdne, hwdall⟩
  · have he : w0 ++ ([] : Line) ++ pk ++ w2 ++ t ++ w3
        = w0 ++ (([] : Line) ++ (([] : Line) ++ (pk ++ (w2 ++ (t ++ w3))))) := by
      simp [List.append_assoc]
    rw [he]
    exact rewriterDefMatch_none hM hw0 (by decide) (by decide) hpk hw2 ht hw3 hne
  · have he : w0 ++ (d ++ wd) ++ pk ++ w2 ++ t ++ w3
        = w0 ++ (d ++ (wd ++ (pk ++ (w2 ++ (t ++ w3))))) := by
      simp [List.append_assoc]
    rw [he]
    exact rewriterDefMatch_none hM hw0 hdall hwdall hpk hw2 ht hw3 hne

theorem rewriterDefMatch_eval_def {n w0 lab pk w2 t w3 : Line}
    (hw0 : allWs w0 = true) (hlab : LabOk lab)
    (hpk : ciEqL kwPROC pk = true) (hw2ne : w2 ≠ []) (hw2 : allWs w2 = true)
    (hci : ciEqL n t = true) (ht : validTok t = true) (hw3 : allWs w3 = true) :
    rewriterDefMatch (w0 ++ lab ++ pk ++ w2 ++ t ++ w3) n
      = some (w0 ++ lab ++ pk ++ w2, w3) := by
  rcases hlab with rfl | ⟨d, wd, rfl, hdne, hdall, hwdne, hwdall⟩
  · have he : w0 ++ ([] : Line) ++ pk ++ w2 ++ t ++ w3
        = w0 ++ (([] : Line) ++ (([] : Line) ++ (pk ++ (w2 ++ (t ++ w3))))) := by
      simp [List.append_assoc]
    rw [he, rewriterDefMatch_eval hw0 (by decide) (by decide) hpk hw2ne hw2
      hci ht hw3]
    simp
  · have he : w0 ++ (d ++ wd) ++ pk ++ w2 ++ t ++ w3
        = w0 ++ (d ++ (wd ++ (pk ++ (w2 ++ (t ++ w3))))) := by
      simp [List.append_assoc]
    rw [he, rewriterDefMatch_eval hw0 hdall hwdall hpk hw2ne hw2 hci ht hw3]
    simp [List.append_assoc]

theorem rewriteLine_defline {pre post : List (Line × Line)}
    {w0 lab pk w2 t w3 N S : Line}
    (hw0 : allWs w0 = true) (hlab : LabOk lab)
    (hpk : ciEqL kwPROC pk = true) (hw2ne : w2 ≠ []) (hw2 : allWs w2 = true)
    (ht : validTok t = true) (hw3 : allWs w3 = true)
    (hciN : ciEqL N t = true) (hS : validTok S = true)
    (hpre : ∀ e ∈ pre, validTok e.1 = true ∧ ciEqL e.1 pk = false ∧
      ciEqL e.1 t = false)
    (hpost : ∀ e ∈ post, validTok e.1 = true ∧ ciEqL e.1 pk = false ∧
      ciEqL e.1 t = false ∧ ciEqL e.1 S = false) :
    rewriteLine (pre ++ (N, S) :: post) (w0 ++ lab ++ pk ++ w2 ++ t ++ w3)
      = w0 ++ lab ++ pk ++ w2 ++ S ++ w3 := by
  unfold rewriteLine
  rw [List.foldl_append]
  have hfold1 : pre.foldl (rewriteStep (w0 ++ lab ++ pk ++ w2 ++ t ++ w3))
      (w0 ++ lab ++ pk ++ w2 ++ t ++ w3)
      = w0 ++ lab ++ pk ++ w2 ++ t ++ w3 := by
    apply foldl_keep
    intro e he
    obtain ⟨hvM, hMpk, hMt⟩ := hpre e he
    unfold rewriteStep
    simp only [rewriterDefMatch_none_def hvM hw0 hlab hpk hw2 ht hw3 hMt]
    by_cases hc : commentOrBlank (w0 ++ lab ++ pk ++ w2 ++ t ++ w3) = true
    · rw [if_pos hc]
    · rw [if_neg hc]
      exact subWordCi_noop
        (NoHit_defline hvM hw0 hlab hpk hw2ne hw2 ht hw3 hMpk hMt)
  rw [hfold1, List.foldl_cons]
  have hstep : rewriteStep (w0 ++ lab ++ pk ++ w2 ++ t ++ w3)
      (w0 ++ lab ++ pk ++ w2 ++ t ++ w3) (N, S)
      = w0 ++ lab ++ pk ++ w2 ++ S ++ w3 := by
    unfold rewriteStep
    simp only [rewriterDefMatch_eval_def hw0 hlab hpk hw2ne hw2 hciN ht hw3]
  rw [hstep]
  apply foldl_keep
  intro e he
  obtain ⟨hvM, hMpk, hMt, hMS⟩ := hpost e he
  unfold rewriteStep
  simp only [rewriterDefMatch_none_def hvM hw0 hlab hpk hw2 ht hw3 hMt]
  by_cases hc : commentOrBlank (w0 ++ lab ++ pk ++ w2 ++ t ++ w3) = true
  · rw [if_pos hc]
  · rw [if_neg hc]
    exact subWordCi_noop
      (NoHit_defline hvM hw0 hlab hpk hw2ne hw2 hS hw3 hMpk hMS)

/-! ## Splitting the rewritten text again -/

theorem splitNl_cons (c : Nat) (cs : Line) :
    splitNl (c :: cs) = if c = 10 then [] :: splitNl cs
      else match splitNl cs with
        | l :: ls => (c :: l) :: ls
        | [] => [[c]] := rfl

theorem splitNl_no_nl {content : Line} :
    ∀ {l : Line}, l ∈ splitNl content → 10 ∉ l := by
  induction content with
  | nil =>
    intro l hl
    simp [splitNl] at hl
    simp [hl]
  | cons c cs ih =>
    intro l hl
    unfold splitNl at hl
    by_cases hc : c = 10
    · rw [if_pos hc] at hl
      rcases List.mem_cons.mp hl with h | h
      · simp [h]
      · exact ih h
    · rw [if_neg hc] at hl
      cases hs : splitNl cs with
      | nil => exact absurd hs (splitNl_ne_nil cs)
      | cons m ms =>
        rw [hs] at hl
        rcases List.mem_cons.mp hl with h | h
        · subst h
          intro hmem
          rcases List.mem_cons.mp hmem with h10 | h10
          · exact hc h10.symm
          · exact ih (hs ▸ List.mem_cons_self m ms) h10
        · exact ih (hs ▸ List.mem_cons_of_mem m h)

theorem splitNl_single {l : Line} (h : 10 ∉ l) : splitNl l = [l] := by
  induction l with
  | nil => rfl
  | cons c cs ih =>
    unfold splitNl
    rw [if_neg (by intro hc; exact h (by simp [hc]))]
    rw [ih (by intro hc; exact h (by simp [hc]))]

theorem splitNl_append_nl {l rest : Line} (h : 10 ∉ l) :
    splitNl (l ++ 10 :: rest) = l :: splitNl rest := by
  induction l with
  | nil =>
    rw [List.nil_append, splitNl_cons, if_pos rfl]
  | cons c cs ih =>
    rw [List.cons_append, splitNl_cons,
      if_neg (by intro hc; exact h (by simp [hc])),
      ih (by intro hc; exact h (by simp [hc]))]

theorem splitNl_joinNl : ∀ {ls : List Line}, ls ≠ [] →
    (∀ l ∈ ls, 10 ∉ l) → splitNl (joinNl ls) = ls := by
  intro ls
  induction ls with
  | nil => intro h _; exact absurd rfl h
  | cons l ls ih =>
    intro _ hno
    cases ls with
    | nil =>
      show splitNl (joinNl [l]) = [l]
      unfold joinNl
      exact splitNl_single (hno l (by simp))
    | cons m ms =>
      show splitNl (l ++ 10 :: joinNl (m :: ms)) = l :: m :: ms
      rw [splitNl_append_nl (hno l (by simp))]
      rw [ih (by simp) (fun x hx => hno x (by simp [hx]))]

/-! ## The keys of the DefinitionIndex -/

theorem keysA_addDef (m : List (Line × List Nat)) (n : Line) (i : Nat) :
    keysA (addDef m n i)
      = if n ∈ keysA m then keysA m else keysA m ++ [n] := by
  induction m with
  | nil => simp [addDef, keysA]
  | cons p rest ih =>
    obtain ⟨k0, v⟩ := p
    by_cases h : k0 = n
    · subst h
      simp [addDef, keysA]
    · simp only [addDef, if_neg h, keysA, List.map_cons]
      simp only [keysA] at ih
      rw [ih]
      by_cases h2 : n ∈ List.map (fun x => x.1) rest
      · rw [if_pos h2, if_pos (List.mem_cons_of_mem _ h2)]
      · rw [if_neg h2, if_neg ?_]
        · simp
        · intro hmem
          rcases List.mem_cons.mp hmem with h1 | h1
          · exact h h1.symm
          · exact h2 h1

theorem keysA_findAllGo_nodup (ls : List Line) :
    ∀ (i : Nat) (m : List (Line × List Nat)), (keysA m).Nodup →
      (keysA (findAllGo i ls m)).Nodup := by
  induction ls with
  | nil => intro i m h; exact h
  | cons l ls ih =>
    intro i m h
    unfold findAllGo
    cases hp : parseDefLine (stripWs l) with
    | none => exact ih _ _ h
    | some n =>
      apply ih
      rw [keysA_addDef]
      by_cases h2 : n ∈ keysA m
      · rw [if_pos h2]
        exact h
      · rw [if_neg h2]
        simp [List.nodup_append, h, h2]

theorem keysA_findAllGo_sub (ls : List Line) :
    ∀ (i : Nat) (m : List (Line × List Nat)) (k : Line),
      k ∈ keysA (findAllGo i ls m) →
      k ∈ keysA m ∨ ∃ l ∈ ls, parseDefLine (stripWs l) = some k := by
  induction ls with
  | nil => intro i m k h; exact Or.inl h
  | cons l ls ih =>
    intro i m k h
    unfold findAllGo at h
    cases hp : parseDefLine (stripWs l) with
    | none =>
      rw [hp] at h
      rcases ih _ _ _ h with h1 | ⟨l', hl', hp'⟩
      · exact Or.inl h1
      · exact Or.inr ⟨l', by simp [hl'], hp'⟩
    | some n =>
      rw [hp] at h
      rcases ih _ _ _ h with h1 | ⟨l', hl', hp'⟩
      · rw [keysA_addDef] at h1
        by_cases h2 : n ∈ keysA m
        · rw [if_pos h2] at h1
          exact Or.inl h1
        · rw [if_neg h2] at h1
          rw [List.mem_append] at h1
          rcases h1 with h1 | h1
          · exact Or.inl h1
          · simp only [List.mem_singleton] at h1
            subst h1
            exact Or.inr ⟨l, by simp, hp⟩
      · exact Or.inr ⟨l', by simp [hl'], hp'⟩

theorem keys_upperTok {content : Line} :
    ∀ k ∈ keysA (find_all_procedures content), upperTok k = true := by
  intro k hk
  unfold find_all_procedures at hk
  rcases keysA_findAllGo_sub _ _ _ _ hk with h | ⟨l, _, hp⟩
  · simp [keysA] at h
  · exact parse_some_upperTok hp

theorem lookupA_some_mem {α : Type} {m : List (Line × α)} {k : Line} {v : α} :
    lookupA m k = some v → (k, v) ∈ m := by
  induction m with
  | nil => intro h; simp [lookupA] at h
  | cons p rest ih =>
    obtain ⟨k0, v0⟩ := p
    intro h
    unfold lookupA at h
    by_cases h0 : k0 = k
    · rw [if_pos h0] at h
      simp only [Option.some.injEq] at h
      subst h0
      subst h
      simp
    · rw [if_neg h0] at h
      exact List.mem_cons_of_mem _ (ih h)

theorem mem_keys_lookupA {α : Type} {m : List (Line × α)} {k : Line} :
    k ∈ keysA m → ∃ v, lookupA m k = some v := by
  induction m with
  | nil => intro h; simp [keysA] at h
  | cons p rest ih =>
    obtain ⟨k0, v0⟩ := p
    intro h
    unfold lookupA
    by_cases h0 : k0 = k
    · rw [if_pos h0]
      exact ⟨v0, rfl⟩
    · rw [if_neg h0]
      apply ih
      simp only [keysA, List.map_cons, List.mem_cons] at h
      rcases h with h | h
      · exact absurd h.symm h0
      · exact h

theorem lookupA_split {α : Type} {pre post : List (Line × α)} {N : Line}
    {S : α} (h : N ∉ keysA pre) :
    lookupA (pre ++ (N, S) :: post) N = some S := by
  induction pre with
  | nil => simp [lookupA]
  | cons p rest ih =>
    obtain ⟨k0, v0⟩ := p
    rw [List.cons_append]
    unfold lookupA
    rw [if_neg (by intro hh; exact h (by simp [keysA, hh]))]
    exact ih (by intro hh; exact h (by simp [keysA] at hh ⊢; exact Or.inr hh))

/-! ## Re-keying the DefinitionIndex along an injective renaming -/

theorem addDef_map {f : Line → Line} {m : List (Line × List Nat)} {n : Line}
    {i : Nat} (hinj : ∀ k ∈ keysA m, f k = f n → k = n) :
    addDef (m.map (fun e => (f e.1, e.2))) (f n) i
      = (addDef m n i).map (fun e => (f e.1, e.2)) := by
  induction m with
  | nil => rfl
  | cons p rest ih =>
    obtain ⟨k0, v⟩ := p
    by_cases h : k0 = n
    · subst h
      simp [addDef]
    · have hf : ¬ f k0 = f n := fun he => h (hinj k0 (by simp [keysA]) he)
      simp only [List.map_cons, addDef, if_neg hf, if_neg h]
      rw [ih (fun k hk he => hinj k (List.mem_cons_of_mem _ hk) he)]

theorem findAllGo_rekey {g f : Line → Line} {P : Line → Prop}
    (hinj : ∀ a b, P a → P b → f a = f b → a = b) :
    ∀ (ls : List Line),
      (∀ l ∈ ls,
        (parseDefLine (stripWs l) = none →
          parseDefLine (stripWs (g l)) = none) ∧
        (∀ N, parseDefLine (stripWs l) = some N → P N ∧
          parseDefLine (stripWs (g l)) = some (f N))) →
      ∀ (i : Nat) (m : List (Line × List Nat)), (∀ k ∈ keysA m, P k) →
      findAllGo i (ls.map g) (m.map (fun e => (f e.1, e.2)))
        = (findAllGo i ls m).map (fun e => (f e.1, e.2)) := by
  intro ls
  induction ls with
  | nil => intro _ i m _; rfl
  | cons l ls ih =>
    intro hl i m hm
    simp only [List.map_cons]
    unfold findAllGo
    cases hp : parseDefLine (stripWs l) with
    | none =>
      have hgn := (hl l (by simp)).1 hp
      simp only [hp, hgn]
      exact ih (fun x hx => hl x (by simp [hx])) _ _ hm
    | some N =>
      obtain ⟨hPN, hgN⟩ := (hl l (by simp)).2 N hp
      simp only [hp, hgN]
      rw [addDef_map (fun k hk he => hinj k N (hm k hk) hPN he)]
      apply ih (fun x hx => hl x (by simp [hx]))
      intro k hk
      rw [keysA_addDef] at hk
      by_cases h2 : N ∈ keysA m
      · rw [if_pos h2] at hk
        exact hm k hk
      · rw [if_neg h2] at hk
        rw [List.mem_append] at hk
        rcases hk with hk | hk
        · exact hm k hk
        · simp only [List.mem_singleton] at hk
          subst hk
          exact hPN

theorem keysA_append {α : Type} (a b : List (Line × α)) :
    keysA (a ++ b) = keysA a ++ keysA b := by
  simp [keysA]

theorem kwPROC_map_upCh : kwPROC.map upCh = kwPROC := by decide

theorem rewriteLine_defparse {keys : List Line} {l N : Line}
    (hknd : keys.Nodup) (hupper : ∀ k ∈ keys, upperTok k = true)
    (hnoPROC : kwPROC ∉ keys) (hN : N ∈ keys)
    (hp : parseDefLine (stripWs l) = some N) :
    parseDefLine (stripWs (rewriteLine (generate_short_names keys) l))
      = some ((lookupA (generate_short_names keys) N).getD N) ∧
    ∀ c ∈ rewriteLine (generate_short_names keys) l,
      c ∈ l ∨ isAlnumCh c = true := by
  obtain ⟨hkeys, hpref, hnev, _, hvnd, _⟩ := generate_spec keys hknd
  have hmemk : ∀ M ∈ keysA (generate_short_names keys), M ∈ keys := by
    intro M hM
    rw [hkeys] at hM
    exact (sortNames_perm keys).mem_iff.mp hM
  obtain ⟨w0, lab, pk, w2, tok, w3, hl, hw0, hlab, hpk, hw2ne, hw2, htok, hw3,
    hNtok⟩ := parseDefLine_strip_iff.mp hp
  have hNup : upperTok N = true := hupper N hN
  have hNmem : N ∈ keysA (generate_short_names keys) := by
    rw [hkeys]
    exact (sortNames_perm keys).mem_iff.mpr hN
  obtain ⟨S, hS⟩ := mem_keys_lookupA hNmem
  have hentry : (N, S) ∈ generate_short_names keys := lookupA_some_mem hS
  obtain ⟨pre, post, hsplit⟩ := List.append_of_mem hentry
  have hkndm : (keysA (generate_short_names keys)).Nodup := by
    rw [hkeys]
    exact (sortNames_perm keys).nodup_iff.mpr hknd
  have hkAm : keysA (generate_short_names keys)
      = keysA pre ++ N :: keysA post := by
    rw [hsplit, keysA_append]
    rfl
  have hnd3 := hkndm
  rw [hkAm] at hnd3
  rw [List.nodup_append] at hnd3
  have hNpost : N ∉ keysA post := by
    have := List.nodup_cons.mp hnd3.2.1
    exact this.1
  have hNpre : N ∉ keysA pre := by
    intro hmem
    exact hnd3.2.2 hmem (by simp)
  have hpw : List.Pairwise (fun p q : Line × Line => keyLe p.1 q.1)
      (generate_short_names keys) := by
    have h1 : List.Pairwise keyLe (keysA (generate_short_names keys)) := by
      rw [hkeys]
      exact sortNames_pairwise keys
    exact List.pairwise_map.mp h1
  have hpostLe : ∀ e ∈ post, keyLe N e.1 := by
    rw [hsplit] at hpw
    have h2 := (List.pairwise_append.mp hpw).2.1
    intro e he
    exact (List.pairwise_cons.mp h2).1 e he
  have hSpref : isPref S N = true := hpref (N, S) hentry
  have hNne : N ≠ [] := (validTok_elim (upperTok_validTok hNup)).1
  have hSne : S ≠ [] := hnev (N, S) hentry hNne
  have hSup : upperTok S = true := upperTok_isPref hNup hSpref hSne
  have hSval : validTok S = true := upperTok_validTok hSup
  have hciN : ciEqL N tok = true := (ciEqL_canon hNup).mpr hNtok
  have hpkcanon : pk.map upCh = kwPROC := by
    have h1 := ciEqL_iff_map_upCh.mp hpk
    rw [kwPROC_map_upCh] at h1
    exact h1.symm
  have hMfacts : ∀ e ∈ generate_short_names keys,
      validTok e.1 = true ∧ ciEqL e.1 pk = false ∧
      (e.1 ≠ N → ciEqL e.1 tok = false) := by
    intro e he
    have hekey : e.1 ∈ keys := hmemk e.1 (List.mem_map_of_mem _ he)
    have heup : upperTok e.1 = true := hupper e.1 hekey
    refine ⟨upperTok_validTok heup, ?_, ?_⟩
    · apply ciEqL_canon_false heup
      rw [hpkcanon]
      intro hh
      rw [hh] at hekey
      exact hnoPROC hekey
    · intro hne
      apply ciEqL_canon_false heup
      rw [← hNtok]
      exact hne
  have hprefacts : ∀ e ∈ pre, validTok e.1 = true ∧ ciEqL e.1 pk = false ∧
      ciEqL e.1 tok = false := by
    intro e he
    have hem : e ∈ generate_short_names keys := by
      rw [hsplit]
      exact List.mem_append_left _ he
    obtain ⟨h1, h2, h3⟩ := hMfacts e hem
    refine ⟨h1, h2, h3 ?_⟩
    intro hh
    apply hNpre
    rw [← hh]
    exact List.mem_map_of_mem _ he
  have hpostfacts : ∀ e ∈ post, validTok e.1 = true ∧ ciEqL e.1 pk = false ∧
      ciEqL e.1 tok = false ∧ ciEqL e.1 S = false := by
    intro e he
    have hem : e ∈ generate_short_names keys := by
      rw [hsplit]
      exact List.mem_append_right _ (by simp [he])
    obtain ⟨h1, h2, h3⟩ := hMfacts e hem
    have heN : e.1 ≠ N := by
      intro hh
      apply hNpost
      rw [← hh]
      exact List.mem_map_of_mem _ he
    refine ⟨h1, h2, h3 heN, ?_⟩
    have heup : upperTok e.1 = true := hupper e.1 (hmemk e.1
      (List.mem_map_of_mem _ hem))
    apply ciEqL_canon_false heup
    rw [upperTok_map_upCh hSup]
    intro hh
    apply heN
    have hlen1 : S.length ≤ N.length := isPref_length hSpref
    have hlen2 : N.length ≤ e.1.length := keyLe_length (hpostLe e he)
    rw [hh] at hlen2
    have hSN : S = N := isPref_eq_of_length hSpref (by omega)
    rw [hh, hSN]
  have hrw : rewriteLine (generate_short_names keys) l
      = w0 ++ lab ++ pk ++ w2 ++ S ++ w3 := by
    rw [hl, hsplit]
    exact rewriteLine_defline hw0 hlab hpk hw2ne hw2 htok hw3 hciN hSval
      hprefacts hpostfacts
  constructor
  · rw [hrw]
    have hparse : parseDefLine (stripWs (w0 ++ lab ++ pk ++ w2 ++ S ++ w3))
        = some (S.map upCh) :=
      parseDefLine_strip_iff.mpr
        ⟨w0, lab, pk, w2, S, w3, rfl, hw0, hlab, hpk, hw2ne, hw2, hSval, hw3,
          rfl⟩
    rw [hparse, upperTok_map_upCh hSup, hS]
    rfl
  · intro c hc
    rw [hrw] at hc
    simp only [List.append_assoc, List.mem_append] at hc
    rcases hc with hc | hc | hc | hc | hc | hc
    · left
      rw [hl]
      simp [hc]
    · left
      rw [hl]
      simp [hc]
    · left
      rw [hl]
      simp [hc]
    · left
      rw [hl]
      simp [hc]
    · right
      exact List.all_eq_true.mp (validTok_elim hSval).2.2 _ hc
    · left
      rw [hl]
      simp [hc]

theorem allWs_of_strip_nil {l : Line} (h : stripWs l = []) : allWs l = true := by
  obtain ⟨a, b, hl, ha, hb⟩ := stripWs_decomp l
  rw [h] at hl
  rw [hl, allWs_append, allWs_append, ha, hb]
  rfl

/-- One rewriting step leaves a blank or comment line unchanged. -/
theorem rewriteStep_cb {orig : Line} (h : commentOrBlank orig = true)
    (e : Line × Line) : rewriteStep orig orig e = orig := by
  unfold rewriteStep
  have hm : rewriterDefMatch orig e.1 = none := by
    unfold commentOrBlank at h
    rw [Bool.or_eq_true] at h
    rcases h with h | h
    · exact rewriterDefMatch_blank (allWs_of_strip_nil (List.isEmpty_iff.mp h))
        e.1
    · exact rewriterDefMatch_comment (by simpa using h) e.1
  simp only [hm]
  rw [if_pos h]

theorem rewriteLine_cb (mapping : List (Line × Line)) {l : Line}
    (h : commentOrBlank l = true) : rewriteLine mapping l = l := by
  unfold rewriteLine
  exact foldl_fixed (fun e => rewriteStep_cb h e) mapping

theorem keysA_findAllGo_mono (ls : List Line) :
    ∀ (i : Nat) (m : List (Line × List Nat)) (k : Line), k ∈ keysA m →
      k ∈ keysA (findAllGo i ls m) := by
  induction ls with
  | nil => intro i m k h; exact h
  | cons l ls ih =>
    intro i m k h
    unfold findAllGo
    cases hp : parseDefLine (stripWs l) with
    | none => exact ih _ _ _ h
    | some n =>
      apply ih
      rw [keysA_addDef]
      by_cases h2 : n ∈ keysA m
      · rw [if_pos h2]
        exact h
      · rw [if_neg h2]
        exact List.mem_append_left _ h

theorem keysA_findAllGo_sup (ls : List Line) :
    ∀ (i : Nat) (m : List (Line × List Nat)) {l N : Line}, l ∈ ls →
      parseDefLine (stripWs l) = some N →
      N ∈ keysA (findAllGo i ls m) := by
  induction ls with
  | nil => intro i m l N h _; simp at h
  | cons x ls ih =>
    intro i m l N hmem hp
    unfold findAllGo
    rcases List.mem_cons.mp hmem with h | h
    · subst h
      rw [hp]
      apply keysA_findAllGo_mono
      rw [keysA_addDef]
      by_cases h2 : N ∈ keysA m
      · rw [if_pos h2]
        exact h2
      · rw [if_neg h2]
        exact List.mem_append_right _ (by simp)
    · cases hq : parseDefLine (stripWs x) with
      | none => exact ih _ _ h hp
      | some n => exact ih _ _ h hp

/-- C2, counterexample.  On the input `PROC AB\nPROC PROC` the Definition
Scanner finds `AB` (line 0) and `PROC` (line 1) and the allocator assigns
`AB → A`, `PROC → P`; but rescanning the Rewriter's output `P A\nPROC P`
yields only the key `P`: the substitution pass rewrote the `PROC` keyword of
line 0 (the procedure named `PROC` collides with the keyword), so the key
`A` — the short name of `AB`, whose entry `[0]` the claim requires — is
absent from the rescan, and the entry counts do not carry over. -/
theorem C2_counterexample :
    find_all_procedures (s2l "PROC AB\nPROC PROC")
        = [(s2l "AB", [0]), (s2l "PROC", [1])] ∧
    lookupA (generate_short_names (keysA (find_all_procedures
        (s2l "PROC AB\nPROC PROC")))) (s2l "AB") = some (s2l "A") ∧
    find_all_procedures (analyzePipeline (s2l "PROC AB\nPROC PROC"))
        = [(s2l "P", [1])] := by
  decide

/-- C2, amended.  When every input line is blank, a comment, or a full
definition line, and no procedure is itself named `PROC`, rescanning the
Rewriter's output yields exactly the original DefinitionIndex re-keyed by
the assigned short names (same entries, same line-number lists, same order,
no other keys).  Without these preconditions the property fails: a
procedure named `PROC` makes the substitution pass destroy definition
lines, and a call line can rewrite into or out of definition shape. -/
theorem C2_rescan_rekeyed (content : Line)
    (hlines : ∀ l ∈ splitNl content, commentOrBlank l = true ∨
      (parseDefLine (stripWs l)).isSome = true)
    (hnoPROC : kwPROC ∉ keysA (find_all_procedures content)) :
    find_all_procedures (analyzePipeline content)
      = (find_all_procedures content).map
          (fun e => ((lookupA (generate_short_names
              (keysA (find_all_procedures content))) e.1).getD e.1, e.2)) := by
  have hknd : (keysA (find_all_procedures content)).Nodup :=
    keysA_findAllGo_nodup _ 0 [] (by simp [keysA])
  have hupper : ∀ k ∈ keysA (find_all_procedures content), upperTok k = true :=
    keys_upperTok
  have hline2 : ∀ l ∈ splitNl content,
      (parseDefLine (stripWs l) = none →
        parseDefLine (stripWs (rewriteLine (generate_short_names
          (keysA (find_all_procedures content))) l)) = none) ∧
      (∀ N, parseDefLine (stripWs l) = some N →
        N ∈ keysA (find_all_procedures content) ∧
        parseDefLine (stripWs (rewriteLine (generate_short_names
            (keysA (find_all_procedures content))) l))
          = some ((lookupA (generate_short_names
              (keysA (find_all_procedures content))) N).getD N)) := by
    intro l hl
    constructor
    · intro hp
      rcases hlines l hl with hc | hs
      · rw [rewriteLine_cb _ hc]
        exact hp
      · rw [hp] at hs
        exact absurd hs (by simp)
    · intro N hp
      have hNk : N ∈ keysA (find_all_procedures content) := by
        unfold find_all_procedures
        exact keysA_findAllGo_sup _ 0 [] hl hp
      exact ⟨hNk, (rewriteLine_defparse hknd hupper hnoPROC hNk hp).1⟩
  have hinj : ∀ a b, a ∈ keysA (find_all_procedures content) →
      b ∈ keysA (find_all_procedures content) →
      (lookupA (generate_short_names
          (keysA (find_all_procedures content))) a).getD a
        = (lookupA (generate_short_names
            (keysA (find_all_procedures content))) b).getD b →
      a = b := by
    intro a b ha hb hfe
    obtain ⟨hkeys, _, _, _, hvnd, _⟩ := generate_spec _ hknd
    have hma : a ∈ keysA (generate_short_names
        (keysA (find_all_procedures content))) := by
      rw [hkeys]
      exact (sortNames_perm _).mem_iff.mpr ha
    have hmb : b ∈ keysA (generate_short_names
        (keysA (find_all_procedures content))) := by
      rw [hkeys]
      exact (sortNames_perm _).mem_iff.mpr hb
    obtain ⟨Sa, hSa⟩ := mem_keys_lookupA hma
    obtain ⟨Sb, hSb⟩ := mem_keys_lookupA hmb
    rw [hSa, hSb] at hfe
    simp only [Option.getD_some] at hfe
    have hpq : (a, Sa) = (b, Sb) :=
      List.inj_on_of_nodup_map hvnd (lookupA_some_mem hSa)
        (lookupA_some_mem hSb) (by simpa using hfe)
    have h2 := congrArg Prod.fst hpq
    simpa using h2
  have hno10 : ∀ l' ∈ (splitNl content).map (rewriteLine
      (generate_short_names (keysA (find_all_procedures content)))), 10 ∉ l' := by
    intro l' hl'
    obtain ⟨l, hl, rfl⟩ := List.mem_map.mp hl'
    intro h10
    rcases hlines l hl with hc | hs
    · rw [rewriteLine_cb _ hc] at h10
      exact splitNl_no_nl hl h10
    · rw [Option.isSome_iff_exists] at hs
      obtain ⟨N, hp⟩ := hs
      have hNk : N ∈ keysA (find_all_procedures content) := by
        unfold find_all_procedures
        exact keysA_findAllGo_sup _ 0 [] hl hp
      rcases (rewriteLine_defparse hknd hupper hnoPROC hNk hp).2 _ h10 with
        h | h
      · exact splitNl_no_nl hl h
      · exact absurd h (by decide)
  have hsplitjoin : splitNl (joinNl ((splitNl content).map (rewriteLine
        (generate_short_names (keysA (find_all_procedures content))))))
      = (splitNl content).map (rewriteLine
          (generate_short_names (keysA (find_all_procedures content)))) := by
    apply splitNl_joinNl ?_ hno10
    intro h
    exact splitNl_ne_nil content (List.map_eq_nil_iff.mp h)
  have hfinal : findAllGo 0 (splitNl (joinNl ((splitNl content).map
        (rewriteLine (generate_short_names
          (keysA (find_all_procedures content))))))) []
      = (findAllGo 0 (splitNl content) []).map
          (fun e => ((lookupA (generate_short_names
            (keysA (find_all_procedures content))) e.1).getD e.1, e.2)) := by
    rw [hsplitjoin]
    exact findAllGo_rekey hinj (splitNl content) hline2 0 []
      (by simp [keysA])
  exact hfinal

/-- Witness for C2's amended theorem on a four-line input made of a labelled
definition line, a comment, a blank line and a plain definition line. -/
theorem C2_rescan_rekeyed_witness :
    find_all_procedures
        (analyzePipeline (s2l "10 PROC ALPHA\n# note\n\nPROC BETA"))
      = (find_all_procedures (s2l "10 PROC ALPHA\n# note\n\nPROC BETA")).map
          (fun e => ((lookupA (generate_short_names
              (keysA (find_all_procedures
                (s2l "10 PROC ALPHA\n# note\n\nPROC BETA")))) e.1).getD e.1,
            e.2)) :=
  C2_rescan_rekeyed _ (by decide) (by decide)
